import Mathlib

/-!
Verification of the hacker-news reader core against its specification.

The definitions below are shallow embeddings of the Rust sources:
`src/models.rs` (data model and `StoriesCache`), `src/hn_client.rs`
(fetch facade, pagination-cursor extraction, comment-count parsing,
comment deduplication and the comment-tree builder) and the
force-refresh path of `src/main.rs`.  Machine integers (`i32`, `u64`,
`usize`) are modelled as `Int`/`Nat`; `std::time::Instant` is modelled
as a `Nat` time point with `elapsed = now - timestamp`; fallible
operations return `Option`/`Except`; mutex `try_lock` outcomes are
explicit boolean parameters; the network fetch outcome is an explicit
`Except` parameter.
-/

/-! ## Data model (src/models.rs) -/

structure HackerNewsItem where
  id : String
  title : String
  url : String
  domain : String
  by_ : String
  score : Int
  time_ago : String
  comments_count : Int
  original_index : Nat
deriving DecidableEq, Repr

inductive HackerNewsComment : Type where
  | mk : (id : String) → (by_ : String) → (text : String) → (time_ago : String) →
      (level : Int) → (children : List HackerNewsComment) → HackerNewsComment
deriving Repr

def HackerNewsComment.id : HackerNewsComment → String
  | .mk i _ _ _ _ _ => i

def HackerNewsComment.level : HackerNewsComment → Int
  | .mk _ _ _ _ l _ => l

def HackerNewsComment.children : HackerNewsComment → List HackerNewsComment
  | .mk _ _ _ _ _ ch => ch

/-- `comment.clone()` followed by `comment.children = ch` in the Rust tree builder. -/
def setChildren : HackerNewsComment → List HackerNewsComment → HackerNewsComment
  | .mk i b t g l _, ch => .mk i b t g l ch

@[simp] theorem setChildren_id (c : HackerNewsComment) (ch : List HackerNewsComment) :
    (setChildren c ch).id = c.id := by
  cases c; rfl

/-- The `HashMap<String, (Vec<HackerNewsComment>, Instant)>` of the cache,
modelled as an association list with insert-replaces semantics. -/
def lookupEntry (m : List (String × (List HackerNewsComment × Nat))) (k : String) :
    Option (List HackerNewsComment × Nat) :=
  match m with
  | [] => none
  | (k', v) :: t => if k' = k then some v else lookupEntry t k

def insertEntry (m : List (String × (List HackerNewsComment × Nat))) (k : String)
    (v : List HackerNewsComment × Nat) : List (String × (List HackerNewsComment × Nat)) :=
  match m with
  | [] => [(k, v)]
  | (k', v') :: t => if k' = k then (k, v) :: t else (k', v') :: insertEntry t k v

structure StoriesCache where
  stories : List HackerNewsItem
  timestamp : Nat
  comments_cache : List (String × (List HackerNewsComment × Nat))

/-- `StoriesCache::new()` created at time `now`. -/
def StoriesCache.new (now : Nat) : StoriesCache :=
  { stories := [], timestamp := now, comments_cache := [] }

/-- `StoriesCache::is_stories_cache_valid`: false when the stored list is
empty, otherwise the elapsed seconds must be below the ttl. -/
def StoriesCache.is_stories_cache_valid (c : StoriesCache) (now ttl : Nat) : Bool :=
  if c.stories.isEmpty then false else decide (now - c.timestamp < ttl)

/-- `StoriesCache::is_comments_cache_valid`. -/
def StoriesCache.is_comments_cache_valid (c : StoriesCache) (story_id : String)
    (now ttl : Nat) : Bool :=
  match lookupEntry c.comments_cache story_id with
  | some (_, ts) => decide (now - ts < ttl)
  | none => false

/-- `StoriesCache::update_stories`. -/
def StoriesCache.update_stories (c : StoriesCache) (now : Nat)
    (stories : List HackerNewsItem) : StoriesCache :=
  { c with stories := stories, timestamp := now }

/-- `StoriesCache::update_comments`. -/
def StoriesCache.update_comments (c : StoriesCache) (now : Nat) (story_id : String)
    (comments : List HackerNewsComment) : StoriesCache :=
  { c with comments_cache := insertEntry c.comments_cache story_id (comments, now) }

/-- `StoriesCache::get_cached_comments`. -/
def StoriesCache.get_cached_comments (c : StoriesCache) (story_id : String) :
    Option (List HackerNewsComment) :=
  (lookupEntry c.comments_cache story_id).map Prod.fst

/-! ## Listing fetch facade (src/hn_client.rs, `fetch_stories_by_tab_and_page`)

The network fetch performed by `fetch_fresh_stories_by_tab_and_page` is
the `fresh` parameter; `readLock`/`writeLock` are the outcomes of the two
`try_lock` calls. -/

def fetch_stories_by_tab_and_page (tab : String) (page : Nat) (ttl : Nat)
    (c : StoriesCache) (now : Nat) (readLock writeLock : Bool)
    (fresh : Except Unit (List HackerNewsItem)) :
    Except Unit (List HackerNewsItem) × StoriesCache :=
  if tab = "hot" ∧ page = 1 ∧ readLock = true ∧ c.is_stories_cache_valid now ttl = true then
    (.ok c.stories, c)
  else
    match fresh with
    | .error e => (.error e, c)
    | .ok stories =>
      if tab = "hot" ∧ page = 1 ∧ writeLock = true then
        (.ok stories, c.update_stories now stories)
      else
        (.ok stories, c)

/-- The cache-read step of `fetch_stories_by_tab_and_page` (the spec's
`readListingIfValid`): the stored snapshot when valid, none otherwise. -/
def readListingIfValid (c : StoriesCache) (now ttl : Nat) : Option (List HackerNewsItem) :=
  if c.is_stories_cache_valid now ttl = true then some c.stories else none

/-- The worker thread body of `load_stories_with_refresh` in src/main.rs:
with `force` it calls `fetch_fresh_stories_by_tab` (no cache interaction),
otherwise `fetch_stories_by_tab` (= page 1 of the caching path).  The
result sent over the channel is `some stories` on success, `none` on
failure; the second component is the cache state afterwards. -/
def load_stories_with_refresh (force : Bool) (tab : String) (ttl : Nat)
    (c : StoriesCache) (now : Nat) (readLock writeLock : Bool)
    (fresh : Except Unit (List HackerNewsItem)) :
    Option (List HackerNewsItem) × StoriesCache :=
  if force then
    (match fresh with | .ok s => some s | .error _ => none, c)
  else
    match fetch_stories_by_tab_and_page tab 1 ttl c now readLock writeLock fresh with
    | (r, c') => (match r with | .ok s => some s | .error _ => none, c')

/-! ## Comments fetch (src/hn_client.rs, `fetch_comments`)

The `unwrap()` on the cached value is modelled by `Option.map` on the
whole outcome: a `none` result would correspond to a panic. -/

def fetch_comments (item_id : String) (ttl : Nat) (c : StoriesCache) (now : Nat)
    (readLock writeLock : Bool) (fresh : Except Unit (List HackerNewsComment)) :
    Option (Except Unit (List HackerNewsComment) × StoriesCache) :=
  if readLock = true ∧ c.is_comments_cache_valid item_id now ttl = true then
    (c.get_cached_comments item_id).map (fun v => (.ok v, c))
  else
    some (match fresh with
      | .error e => (.error e, c)
      | .ok comments =>
        if writeLock = true then (.ok comments, c.update_comments now item_id comments)
        else (.ok comments, c))

/-! ## Listing URL construction (src/hn_client.rs, `fetch_fresh_stories_by_tab_and_page`)

`stored` is the content of `next_page_params`, `paramsLock` the outcome of
its `lock()`. -/

def listing_base_url (tab : String) : String :=
  if tab = "hot" then "https://news.ycombinator.com/"
  else if tab = "new" then "https://news.ycombinator.com/newest"
  else if tab = "show" then "https://news.ycombinator.com/show"
  else if tab = "ask" then "https://news.ycombinator.com/ask"
  else if tab = "jobs" then "https://news.ycombinator.com/jobs"
  else if tab = "best" then "https://news.ycombinator.com/best"
  else "https://news.ycombinator.com/"

def listing_url (tab : String) (page : Nat) (stored : Option (String × String))
    (paramsLock : Bool) : String :=
  let base := listing_base_url tab
  if page > 1 then
    if tab = "new" then
      if page = 2 then base ++ "?n=31"
      else
        if paramsLock = true then
          match stored with
          | some (next_param, n_param) => base ++ "?next=" ++ next_param ++ "&n=" ++ n_param
          | none => base ++ "?n=" ++ toString (1 + (page - 1) * 30)
        else base ++ "?n=" ++ toString (1 + (page - 1) * 30)
    else base ++ "?p=" ++ toString page
  else base

/-! ## Sample values used by concrete witnesses -/

def sampleItem : HackerNewsItem :=
  { id := "1", title := "t", url := "u", domain := "d", by_ := "a",
    score := 1, time_ago := "now", comments_count := 0, original_index := 0 }

def emptyCache : StoriesCache := StoriesCache.new 0

def cacheWithComments : StoriesCache :=
  { stories := [], timestamp := 0,
    comments_cache := [("7", ([HackerNewsComment.mk "c1" "u" "x" "now" 0 []], 0))] }

/-! ## Claims about the cache and the facade -/

/-- Claim C1, counterexample: with forceRefresh on the cacheable key
(hot tab, page 1) and a successful fetch, the listing cache slot is NOT
written with the fetched items — the whole cache state is unchanged. -/
theorem c1_counterexample :
    (load_stories_with_refresh true "hot" 300 emptyCache 5 true true
        (.ok [sampleItem])).2.stories ≠ [sampleItem] ∧
    (load_stories_with_refresh true "hot" 300 emptyCache 5 true true
        (.ok [sampleItem])).2 = emptyCache := by
  constructor
  · decide
  · rfl

/-- Claim C1 (amended): a listing fetch invoked with forceRefresh true
bypasses both the cache read and the cache write: it leaves the cache
state unchanged, for every tab, cache state and fetch outcome. -/
theorem c1_force_refresh_no_cache_write (tab : String) (ttl : Nat) (c : StoriesCache)
    (now : Nat) (readLock writeLock : Bool) (fresh : Except Unit (List HackerNewsItem)) :
    (load_stories_with_refresh true tab ttl c now readLock writeLock fresh).2 = c := by
  simp [load_stories_with_refresh]

/-- Claim C3, counterexample: on the "new" tab at page 2 the request URL
is the fixed `?n=31` form and does not forward the stored
(nextId, countParam) pair. -/
theorem c3_counterexample :
    listing_url "new" 2 (some ("41000000", "61")) true =
      "https://news.ycombinator.com/newest?n=31" ∧
    listing_url "new" 2 (some ("41000000", "61")) true ≠
      "https://news.ycombinator.com/newest" ++ "?next=" ++ "41000000" ++ "&n=" ++ "61" := by
  constructor
  · rfl
  · decide

/-- Claim C3 (amended): for every listing request on the cursor-paginated
chronological ("new") tab with page greater than 2, when a previously
extracted (nextId, countParam) pair is stored and the parameter lock is
available, the request URL forwards the pair as the `next` and `n` query
parameters (page 2 instead uses the fixed `?n=31`). -/
theorem c3_new_tab_forwards_cursor (next_param n_param : String) (page : Nat)
    (h : 2 < page) :
    listing_url "new" page (some (next_param, n_param)) true =
      "https://news.ycombinator.com/newest" ++ "?next=" ++ next_param ++ "&n=" ++ n_param := by
  have h1 : page > 1 := by omega
  have h2 : ¬(page = 2) := by omega
  simp [listing_url, listing_base_url, h1, h2]

theorem c3_new_tab_forwards_cursor_witness :
    listing_url "new" 3 (some ("41000000", "91")) true =
      "https://news.ycombinator.com/newest" ++ "?next=" ++ "41000000" ++ "&n=" ++ "91" :=
  c3_new_tab_forwards_cursor "41000000" "91" 3 (by decide)

/-- Claim C4, counterexample: immediately after a write of an empty item
list, `readListingIfValid` with a large ttl returns none (the code treats
an empty stored list as "no snapshot"), contradicting "readListingIfValid
with a large ttl immediately after a write returns the written snapshot". -/
theorem c4_counterexample :
    readListingIfValid (StoriesCache.update_stories emptyCache 5 []) 5 1000000 = none := by
  decide

/-- Claim C4 (amended): `readListingIfValid(ttl)` returns the stored
snapshot iff the stored item list is nonempty and its age is below ttl;
in particular `readListingIfValid 0` returns none immediately after any
write, and a positive ttl immediately after a write of a nonempty list
returns the written snapshot. -/
theorem c4_read_listing_iff (c : StoriesCache) (now ttl : Nat) :
    (∀ s, readListingIfValid c now ttl = some s ↔
      (s = c.stories ∧ c.stories ≠ [] ∧ now - c.timestamp < ttl)) ∧
    (∀ items t, readListingIfValid (c.update_stories t items) t 0 = none) ∧
    (∀ items t big, items ≠ [] → 0 < big →
      readListingIfValid (c.update_stories t items) t big = some items) := by
  refine ⟨?_, ?_, ?_⟩
  · intro s
    unfold readListingIfValid StoriesCache.is_stories_cache_valid
    by_cases hs : c.stories = []
    · simp [hs]
    · have hse : c.stories.isEmpty = false := by
        simpa [List.isEmpty_iff] using hs
      rw [hse]
      by_cases hv : now - c.timestamp < ttl
      · simp [hv, hs]
        exact ⟨fun h => h.symm, fun h => h.symm⟩
      · simp [hv]
  · intro items t
    unfold readListingIfValid StoriesCache.is_stories_cache_valid
    simp [StoriesCache.update_stories]
  · intro items t big hne hbig
    unfold readListingIfValid StoriesCache.is_stories_cache_valid
    simp [StoriesCache.update_stories, hne, hbig]

theorem c4_read_listing_iff_witness :
    readListingIfValid (StoriesCache.update_stories emptyCache 5 [sampleItem]) 5 300 =
      some [sampleItem] :=
  (c4_read_listing_iff emptyCache 5 300).2.2 [sampleItem] 5 300 (by decide) (by decide)

/-- Claim C9: a failed fetch (the `fresh` outcome is an error, covering
both network errors and failed parses) never changes the cache state,
for the listing path and for the comments path alike. -/
theorem c9_failed_fetch_preserves_cache (tab : String) (page ttl : Nat)
    (c : StoriesCache) (now : Nat) (readLock writeLock : Bool) :
    (fetch_stories_by_tab_and_page tab page ttl c now readLock writeLock (.error ())).2 = c ∧
    (∀ item_id r, fetch_comments item_id ttl c now readLock writeLock (.error ()) = some r →
      r.2 = c) := by
  constructor
  · unfold fetch_stories_by_tab_and_page
    by_cases h : tab = "hot" ∧ page = 1 ∧ readLock = true ∧
        c.is_stories_cache_valid now ttl = true
    · simp [h]
    · simp [h]
  · intro item_id r hr
    unfold fetch_comments at hr
    by_cases h : readLock = true ∧ c.is_comments_cache_valid item_id now ttl = true
    · simp [h] at hr
      rcases hr with ⟨v, _, hv⟩
      rw [← hv]
    · simp [h] at hr
      rw [← hr]

theorem c9_failed_fetch_preserves_cache_witness :
    ((Except.error () : Except Unit (List HackerNewsComment)), emptyCache).2 = emptyCache :=
  (c9_failed_fetch_preserves_cache "hot" 1 300 emptyCache 0 true true).2 "1"
    (Except.error (), emptyCache) (by rfl)

/-- Claim C10: whenever `is_comments_cache_valid` holds for a thread id,
`get_cached_comments` returns some value, so the `unwrap()` inside
`fetch_comments` never panics (`fetch_comments` never returns the
panic sentinel `none`). -/
theorem c10_valid_cache_unwrap_safe (c : StoriesCache) (story_id : String) (now ttl : Nat)
    (h : c.is_comments_cache_valid story_id now ttl = true) :
    (∃ v, c.get_cached_comments story_id = some v) ∧
    (∀ readLock writeLock fresh,
      (fetch_comments story_id ttl c now readLock writeLock fresh).isSome = true) := by
  have hsome : ∃ v, lookupEntry c.comments_cache story_id = some v := by
    unfold StoriesCache.is_comments_cache_valid at h
    cases hl : lookupEntry c.comments_cache story_id with
    | none => rw [hl] at h; simp at h
    | some v => exact ⟨v, rfl⟩
  rcases hsome with ⟨v, hv⟩
  constructor
  · exact ⟨v.1, by unfold StoriesCache.get_cached_comments; rw [hv]; rfl⟩
  · intro readLock writeLock fresh
    unfold fetch_comments
    by_cases hrl : readLock = true ∧ c.is_comments_cache_valid story_id now ttl = true
    · simp only [hrl, if_pos]
      unfold StoriesCache.get_cached_comments
      rw [hv]
      rfl
    · simp [hrl]

theorem c10_valid_cache_unwrap_safe_witness :
    (∃ v, cacheWithComments.get_cached_comments "7" = some v) ∧
    (∀ readLock writeLock fresh,
      (fetch_comments "7" 300 cacheWithComments 0 readLock writeLock fresh).isSome = true) :=
  c10_valid_cache_unwrap_safe cacheWithComments "7" 0 300 (by decide)

/-! ## Byte-string scanning helpers

Rust `str::find`, `str::rfind`, `str::contains` and slicing are modelled
over `List Char` with character positions. -/

def strContains (hay needle : List Char) : Bool :=
  match hay with
  | [] => needle.isEmpty
  | c :: t => needle.isPrefixOf (c :: t) || strContains t needle

def findSub (needle : List Char) : List Char → Option Nat
  | [] => if needle.isPrefixOf ([] : List Char) then some 0 else none
  | c :: t =>
    if needle.isPrefixOf (c :: t) then some 0
    else (findSub needle t).map (fun k => k + 1)

def rfindSub (needle : List Char) : List Char → Option Nat
  | [] => if needle.isPrefixOf ([] : List Char) then some 0 else none
  | c :: t =>
    match rfindSub needle t with
    | some k => some (k + 1)
    | none => if needle.isPrefixOf (c :: t) then some 0 else none

/-! ## Pagination-cursor extraction (src/hn_client.rs, `extract_more_link_params`) -/

def morelinkMarker : List Char := "class=\"morelink\"".toList
def hrefMarker : List Char := "href=\"".toList
def quoteMark : List Char := "\"".toList
def newestNextPat : List Char := "newest?next=".toList
def ampNPat : List Char := "&n=".toList
def nextEqPat : List Char := "next=".toList
def ampMark : List Char := "&".toList

def extract_more_link_params (html : List Char) : Option (List Char × List Char) :=
  match findSub morelinkMarker html with
  | none => none
  | some more_link_pos =>
    match rfindSub hrefMarker (html.take more_link_pos) with
    | none => none
    | some href_start =>
      match findSub quoteMark (html.drop (href_start + 6)) with
      | none => none
      | some href_end =>
        let href := (html.drop (href_start + 6)).take href_end
        if strContains href newestNextPat && strContains href ampNPat then
          match findSub nextEqPat href with
          | none => none
          | some next_start =>
            match findSub ampMark (href.drop (next_start + 5)) with
            | none => none
            | some next_end =>
              let next_param := (href.drop (next_start + 5)).take next_end
              match findSub ampNPat href with
              | none => none
              | some n_start => some (next_param, href.drop (n_start + 3))
        else none

/-! ## Comment-count parsing (src/hn_client.rs, `parse_stories`)

The closure computing `comments_count` is embedded over the list of the
metadata row's anchor texts; a missing metadata row is `none`. -/

def isDigitChar (c : Char) : Bool := c.isDigit

def digitsVal (ds : List Char) : Nat :=
  ds.foldl (fun a c => a * 10 + (c.toNat - 48)) 0

/-- `<i32>::from_str` on the digit part, with the i32 overflow check. -/
def parseDigitsPos (ds : List Char) : Option Int :=
  if ds ≠ [] ∧ ds.all isDigitChar then
    if digitsVal ds ≤ 2147483647 then some (Int.ofNat (digitsVal ds)) else none
  else none

def parseDigitsNeg (ds : List Char) : Option Int :=
  if ds ≠ [] ∧ ds.all isDigitChar then
    if digitsVal ds ≤ 2147483648 then some (-(Int.ofNat (digitsVal ds))) else none
  else none

/-- `token.parse::<i32>()`. -/
def parseI32 (t : List Char) : Option Int :=
  match t with
  | [] => none
  | c :: rest =>
    if c = '+' then parseDigitsPos rest
    else if c = '-' then parseDigitsNeg rest
    else parseDigitsPos (c :: rest)

def nbspPat : List Char := "&nbsp;".toList
def commentsWord : List Char := "comments".toList

/-- The separator-and-word part `(?:&nbsp;|\s+)comments` of the regex,
matched at the head of `rest`. -/
def sepThenComments (rest : List Char) : Bool :=
  if nbspPat.isPrefixOf rest then commentsWord.isPrefixOf (rest.drop 6)
  else
    let ws := rest.takeWhile Char.isWhitespace
    decide (ws ≠ []) && commentsWord.isPrefixOf (rest.drop ws.length)

/-- One anchored attempt of the regex `(\d+)(?:&nbsp;|\s+)comments`
at the head of `s`, returning capture group 1. -/
def matchCommentsAt (s : List Char) : Option (List Char) :=
  let ds := s.takeWhile isDigitChar
  if ds = [] then none
  else if sepThenComments (s.drop ds.length) then some ds else none

/-- `Regex::captures` for the pattern: leftmost match, capture group 1. -/
def findCommentsNum : List Char → Option (List Char)
  | [] => none
  | c :: t =>
    match matchCommentsAt (c :: t) with
    | some ds => some ds
    | none => findCommentsNum t

/-- `str::split_whitespace`. -/
def splitWs : List Char → List (List Char)
  | [] => []
  | c :: t =>
    if hc : c.isWhitespace then splitWs t
    else ((c :: t).takeWhile (fun x => !x.isWhitespace)) ::
      splitWs ((c :: t).dropWhile (fun x => !x.isWhitespace))
termination_by l => l.length
decreasing_by
  · simp only [List.length_cons]
    omega
  · have h1 : List.dropWhile (fun x => !x.isWhitespace) (c :: t) =
        List.dropWhile (fun x => !x.isWhitespace) t := by
      rw [List.dropWhile_cons_of_pos]
      simp [hc]
    have h2 : (t.dropWhile (fun x => !x.isWhitespace)).length ≤ t.length :=
      (List.dropWhile_sublist _).length_le
    rw [h1]
    simp only [List.length_cons]
    omega

def fallbackTokenCount (t : List Char) : Int :=
  match splitWs t with
  | [] => 0
  | tok :: _ => match parseI32 tok with | some v => v | none => 0

/-- The per-anchor body of the `comments_count` closure: `none` means the
anchor text mentions neither "comment" nor "discuss" and the loop
continues. -/
def commentCountOfLink (link_text : List Char) : Option Int :=
  if strContains link_text ("comment".toList) || strContains link_text ("discuss".toList) then
    some (if strContains link_text ("discuss".toList) then 0
      else
        match findCommentsNum link_text with
        | some ds =>
          (match parseI32 ds with
           | some v => v
           | none => fallbackTokenCount link_text)
        | none => fallbackTokenCount link_text)
  else none

def comments_count_of_links : List (List Char) → Int
  | [] => 0
  | t :: ts =>
    match commentCountOfLink t with
    | some v => v
    | none => comments_count_of_links ts

/-- The whole `comments_count` computation: `none` is a missing metadata
row (`subtext` was `None`), defaulting to 0 via `unwrap_or(0)`. -/
def comments_count_of_subtext : Option (List (List Char)) → Int
  | none => 0
  | some links => comments_count_of_links links

/-! ## Lemmas about the scanning helpers -/

theorem strContains_append_right (xs ys needle : List Char)
    (h : strContains ys needle = true) : strContains (xs ++ ys) needle = true := by
  induction xs with
  | nil => simpa using h
  | cons c t ih =>
    simp only [List.cons_append, strContains, Bool.or_eq_true]
    exact Or.inr ih

theorem strContains_false_of_not_mem (d : Char) (rest : List Char) :
    ∀ hay : List Char, (∀ c ∈ hay, c ≠ d) → strContains hay (d :: rest) = false := by
  intro hay
  induction hay with
  | nil => intro _; rfl
  | cons c t ih =>
    intro h
    simp only [strContains, Bool.or_eq_false_iff]
    constructor
    · rw [Bool.eq_false_iff]
      intro hp
      rw [List.isPrefixOf_iff_prefix] at hp
      rcases List.cons_prefix_cons.mp hp with ⟨hdc, _⟩
      exact h c (List.mem_cons_self c t) hdc.symm
    · exact ih fun x hx => h x (List.mem_cons_of_mem _ hx)

theorem takeWhile_append_of_all {α : Type} {p : α → Bool} :
    ∀ xs ys : List α, (∀ x ∈ xs, p x = true) →
      (xs ++ ys).takeWhile p = xs ++ ys.takeWhile p := by
  intro xs ys h
  induction xs with
  | nil => simp
  | cons c t ih =>
    have hc : p c = true := h c (List.mem_cons_self c t)
    simp only [List.cons_append, List.takeWhile_cons_of_pos hc]
    rw [ih fun x hx => h x (List.mem_cons_of_mem _ hx)]

theorem dropWhile_append_of_all {α : Type} {p : α → Bool} :
    ∀ xs ys : List α, (∀ x ∈ xs, p x = true) →
      (xs ++ ys).dropWhile p = ys.dropWhile p := by
  intro xs ys h
  induction xs with
  | nil => simp
  | cons c t ih =>
    have hc : p c = true := h c (List.mem_cons_self c t)
    simp only [List.cons_append, List.dropWhile_cons_of_pos hc]
    exact ih fun x hx => h x (List.mem_cons_of_mem _ hx)

/-! ## Claim C8: pagination-cursor extraction -/

/-- Claim C8: the pagination-cursor extractor locates the "more" anchor
marker, scans backward for the nearest preceding link target and parses
it for the continuation-id and count parameters; whenever the marker,
the link or either parameter is missing it returns none (a total
function, never an error), and a successful extraction certifies that
every stage succeeded and that the link target contains both required
parameters. -/
theorem c8_more_link_extraction (html : List Char) :
    (findSub morelinkMarker html = none → extract_more_link_params html = none) ∧
    (∀ mp, findSub morelinkMarker html = some mp →
      rfindSub hrefMarker (html.take mp) = none → extract_more_link_params html = none) ∧
    (∀ mp hs he, findSub morelinkMarker html = some mp →
      rfindSub hrefMarker (html.take mp) = some hs →
      findSub quoteMark (html.drop (hs + 6)) = some he →
      (strContains ((html.drop (hs + 6)).take he) newestNextPat = false ∨
       strContains ((html.drop (hs + 6)).take he) ampNPat = false) →
      extract_more_link_params html = none) ∧
    (∀ p, extract_more_link_params html = some p →
      ∃ mp hs he, findSub morelinkMarker html = some mp ∧
        rfindSub hrefMarker (html.take mp) = some hs ∧
        findSub quoteMark (html.drop (hs + 6)) = some he ∧
        strContains ((html.drop (hs + 6)).take he) newestNextPat = true ∧
        strContains ((html.drop (hs + 6)).take he) ampNPat = true) := by
  refine ⟨?_, ?_, ?_, ?_⟩
  · intro h
    unfold extract_more_link_params
    rw [h]
  · intro mp h1 h2
    simp only [extract_more_link_params, h1, h2]
  · intro mp hs he h1 h2 h3 h4
    have hcond : (strContains ((html.drop (hs + 6)).take he) newestNextPat &&
        strContains ((html.drop (hs + 6)).take he) ampNPat) = false := by
      rcases h4 with h4 | h4 <;> simp [h4]
    simp only [extract_more_link_params, h1, h2, h3, hcond]
    rfl
  · intro p hp
    cases h1 : findSub morelinkMarker html with
    | none =>
      simp only [extract_more_link_params, h1] at hp
      exact Option.noConfusion hp
    | some mp =>
      simp only [extract_more_link_params, h1] at hp
      cases h2 : rfindSub hrefMarker (html.take mp) with
      | none =>
        simp only [h2] at hp
        exact Option.noConfusion hp
      | some hs =>
        simp only [h2] at hp
        cases h3 : findSub quoteMark (html.drop (hs + 6)) with
        | none =>
          simp only [h3] at hp
          exact Option.noConfusion hp
        | some he =>
          simp only [h3] at hp
          by_cases h4 : (strContains ((html.drop (hs + 6)).take he) newestNextPat &&
              strContains ((html.drop (hs + 6)).take he) ampNPat) = true
          · rw [Bool.and_eq_true] at h4
            exact ⟨mp, hs, he, rfl, h2, h3, h4.1, h4.2⟩
          · rw [if_neg h4] at hp
            exact Option.noConfusion hp

def goodMoreHtml : List Char :=
  "<a href=\"newest?next=41000000&n=31\" class=\"morelink\">".toList

theorem c8_more_link_extraction_witness :
    extract_more_link_params ("no marker here".toList) = none ∧
    (∃ mp hs he, findSub morelinkMarker goodMoreHtml = some mp ∧
      rfindSub hrefMarker (goodMoreHtml.take mp) = some hs ∧
      findSub quoteMark (goodMoreHtml.drop (hs + 6)) = some he ∧
      strContains ((goodMoreHtml.drop (hs + 6)).take he) newestNextPat = true ∧
      strContains ((goodMoreHtml.drop (hs + 6)).take he) ampNPat = true) :=
  ⟨(c8_more_link_extraction ("no marker here".toList)).1 (by decide),
   (c8_more_link_extraction goodMoreHtml).2.2.2 ("41000000".toList, "31".toList) (by decide)⟩

/-! ## Claim C7: comment-count parsing -/

theorem commentCountOfLink_digits_sep (ds sep : List Char) (hne : ds ≠ [])
    (hdig : ∀ c ∈ ds, isDigitChar c = true) (hbound : digitsVal ds ≤ 2147483647)
    (hsep1 : sep.takeWhile isDigitChar = [])
    (hsep2 : sepThenComments sep = true)
    (hsepc : strContains sep ("comment".toList) = true)
    (hsepd : ∀ c ∈ sep, c ≠ 'd') :
    commentCountOfLink (ds ++ sep) = some (Int.ofNat (digitsVal ds)) := by
  obtain ⟨d, dt, rfl⟩ : ∃ d dt, ds = d :: dt := by
    cases ds with
    | nil => exact absurd rfl hne
    | cons a b => exact ⟨a, b, rfl⟩
  set ds := d :: dt with hds
  have hcm : strContains (ds ++ sep) ("comment".toList) = true :=
    strContains_append_right _ _ _ hsepc
  have hmemd : ∀ c ∈ ds ++ sep, c ≠ 'd' := by
    intro c hc
    rcases List.mem_append.mp hc with h | h
    · intro he
      have hd := hdig c h
      rw [he] at hd
      exact absurd hd (by decide)
    · exact hsepd c h
  have hdisc : strContains (ds ++ sep) ("discuss".toList) = false := by
    have hd : ("discuss".toList) = 'd' :: "iscuss".toList := by decide
    rw [hd]
    exact strContains_false_of_not_mem _ _ _ hmemd
  have htw : (ds ++ sep).takeWhile isDigitChar = ds := by
    rw [takeWhile_append_of_all _ _ hdig, hsep1, List.append_nil]
  have hmatch : matchCommentsAt (ds ++ sep) = some ds := by
    simp only [matchCommentsAt, htw]
    rw [if_neg hne]
    have hlen : (ds ++ sep).drop ds.length = sep := List.drop_left ds sep
    rw [hlen, if_pos hsep2]
  have hfind : findCommentsNum (ds ++ sep) = some ds := by
    rw [hds]
    simp only [List.cons_append, findCommentsNum, List.append_eq]
    rw [← List.cons_append, ← hds, hmatch]
  have hparse : parseI32 ds = some (Int.ofNat (digitsVal ds)) := by
    have hdd := hdig d (by rw [hds]; exact List.mem_cons_self d dt)
    have h1 : d ≠ '+' := by
      intro he; rw [he] at hdd; exact absurd hdd (by decide)
    have h2 : d ≠ '-' := by
      intro he; rw [he] at hdd; exact absurd hdd (by decide)
    rw [hds]
    simp only [parseI32]
    rw [if_neg h1, if_neg h2]
    unfold parseDigitsPos
    rw [← hds, if_pos ⟨by rw [hds]; simp, List.all_eq_true.mpr hdig⟩, if_pos hbound]
  unfold commentCountOfLink
  rw [hcm]
  simp only [Bool.true_or, if_pos]
  rw [hdisc]
  simp only [Bool.false_eq_true, if_false, hfind, hparse]

/-- Claim C7: for a listing item row, comment-count parsing yields the
numeric token for labels of the form `<n>&nbsp;comments` and
`<n> comments`, yields 0 for a `discuss` label, and yields 0 when the
metadata row is missing; it is a total function, never an error. -/
theorem c7_comment_count_parsing (ds : List Char) (hne : ds ≠ [])
    (hdig : ∀ c ∈ ds, isDigitChar c = true) (hbound : digitsVal ds ≤ 2147483647) :
    comments_count_of_subtext (some [ds ++ "&nbsp;comments".toList]) =
      Int.ofNat (digitsVal ds) ∧
    comments_count_of_subtext (some [ds ++ " comments".toList]) =
      Int.ofNat (digitsVal ds) ∧
    comments_count_of_subtext (some ["discuss".toList]) = 0 ∧
    comments_count_of_subtext none = 0 := by
  refine ⟨?_, ?_, by decide, rfl⟩
  · have h := commentCountOfLink_digits_sep ds ("&nbsp;comments".toList) hne hdig hbound
      (by decide) (by decide) (by decide) (by decide)
    simp only [comments_count_of_subtext, comments_count_of_links, h]
  · have h := commentCountOfLink_digits_sep ds (" comments".toList) hne hdig hbound
      (by decide) (by decide) (by decide) (by decide)
    simp only [comments_count_of_subtext, comments_count_of_links, h]

theorem c7_comment_count_parsing_witness :
    comments_count_of_subtext (some ["29".toList ++ "&nbsp;comments".toList]) =
      Int.ofNat (digitsVal "29".toList) ∧
    comments_count_of_subtext (some ["29".toList ++ " comments".toList]) =
      Int.ofNat (digitsVal "29".toList) ∧
    comments_count_of_subtext (some ["discuss".toList]) = 0 ∧
    comments_count_of_subtext none = 0 :=
  c7_comment_count_parsing "29".toList (by decide) (by decide) (by decide)

/-! ## Claim C6: comment deduplication (src/hn_client.rs, `parse_comments`)

The per-row extracted data is a `RawCommentRow`; the dedup loop over the
selected rows threads the `processed_ids` set (modelled as a list). -/

structure RawCommentRow where
  id : String
  by_ : String
  text : String
  time_ago : String
  level : Int
deriving DecidableEq, Repr

def rowToComment (r : RawCommentRow) : HackerNewsComment :=
  .mk r.id r.by_ r.text r.time_ago r.level []

@[simp] theorem rowToComment_id (r : RawCommentRow) : (rowToComment r).id = r.id := rfl

/-- The flat-list building loop of `parse_comments`: a row whose id was
already processed is skipped, otherwise its (level, comment) pair is
appended and its id recorded. -/
def collect_comment_rows : List RawCommentRow → List String → List (Int × HackerNewsComment)
  | [], _ => []
  | r :: rs, seen =>
    if r.id ∈ seen then collect_comment_rows rs seen
    else (r.level, rowToComment r) :: collect_comment_rows rs (r.id :: seen)

/-- Keep-first deduplication of an id sequence (reference function). -/
def dedupFirst : List String → List String → List String
  | [], _ => []
  | x :: xs, seen => if x ∈ seen then dedupFirst xs seen else x :: dedupFirst xs (x :: seen)

theorem collect_map_id : ∀ (rows : List RawCommentRow) (seen : List String),
    (collect_comment_rows rows seen).map (fun p => p.2.id) =
      dedupFirst (rows.map (fun r => r.id)) seen := by
  intro rows
  induction rows with
  | nil => intro seen; rfl
  | cons r rs ih =>
    intro seen
    simp only [collect_comment_rows, List.map_cons, dedupFirst]
    by_cases h : r.id ∈ seen
    · rw [if_pos h, if_pos h, ih]
    · rw [if_neg h, if_neg h, List.map_cons, ih]
      rfl

theorem dedupFirst_countP_zero : ∀ (ids seen : List String) (tid : String),
    tid ∈ seen → (dedupFirst ids seen).countP (fun x => x == tid) = 0 := by
  intro ids
  induction ids with
  | nil => intro seen tid _; rfl
  | cons x xs ih =>
    intro seen tid htid
    simp only [dedupFirst]
    by_cases h : x ∈ seen
    · rw [if_pos h]; exact ih seen tid htid
    · rw [if_neg h]
      have hx : x ≠ tid := fun he => h (he ▸ htid)
      rw [List.countP_cons_of_neg]
      · exact ih (x :: seen) tid (List.mem_cons_of_mem _ htid)
      · simp [hx]

theorem dedupFirst_countP_one : ∀ (ids seen : List String) (tid : String),
    tid ∉ seen → tid ∈ ids →
    (dedupFirst ids seen).countP (fun x => x == tid) = 1 := by
  intro ids
  induction ids with
  | nil => intro seen tid _ h; exact absurd h (by simp)
  | cons x xs ih =>
    intro seen tid hseen hmem
    simp only [dedupFirst]
    by_cases h : x ∈ seen
    · rw [if_pos h]
      have hx : tid ≠ x := fun he => hseen (he ▸ h)
      have : tid ∈ xs := by
        rcases List.mem_cons.mp hmem with he | hm
        · exact absurd he hx
        · exact hm
      exact ih seen tid hseen this
    · rw [if_neg h]
      by_cases hx : x = tid
      · rw [List.countP_cons_of_pos]
        · have : (dedupFirst xs (x :: seen)).countP (fun y => y == tid) = 0 :=
            dedupFirst_countP_zero xs (x :: seen) tid (by rw [hx]; exact List.mem_cons_self _ _)
          omega
        · simp [hx]
      · rw [List.countP_cons_of_neg]
        · have htid' : tid ∉ x :: seen := by
            intro hc
            rcases List.mem_cons.mp hc with he | hm
            · exact hx he.symm
            · exact hseen hm
          have hmem' : tid ∈ xs := by
            rcases List.mem_cons.mp hmem with he | hm
            · exact absurd he.symm hx
            · exact hm
          exact ih (x :: seen) tid htid' hmem'
        · simp [hx]

theorem collect_find_first : ∀ (rows : List RawCommentRow) (seen : List String) (tid : String),
    tid ∉ seen →
    (collect_comment_rows rows seen).find? (fun p => p.2.id == tid) =
      (rows.find? (fun r => r.id == tid)).map (fun r => (r.level, rowToComment r)) := by
  intro rows
  induction rows with
  | nil => intro seen tid _; rfl
  | cons r rs ih =>
    intro seen tid htid
    simp only [collect_comment_rows]
    by_cases hid : r.id = tid
    · have hmem : r.id ∉ seen := hid ▸ htid
      rw [if_neg hmem]
      rw [List.find?_cons_of_pos, List.find?_cons_of_pos]
      · rfl
      · simp [hid]
      · simp [hid]
    · rw [List.find?_cons_of_neg]
      · by_cases hmem : r.id ∈ seen
        · rw [if_pos hmem]
          exact ih seen tid htid
        · rw [if_neg hmem]
          rw [List.find?_cons_of_neg]
          · have : tid ∉ r.id :: seen := by
              intro hc
              rcases List.mem_cons.mp hc with he | hm
              · exact hid he.symm
              · exact htid hm
            exact ih (r.id :: seen) tid this
          · simp [hid]
      · simp [hid]

/-- Claim C6: when the same comment id occurs two or more times among the
selected rows (adjacent or not), the thread parser's flat output contains
exactly one node with that id, and that node carries the data and
position of the first occurrence: `find?` returns the first occurrence's
data, and the output id sequence is exactly the keep-first
deduplication of the input id sequence. -/
theorem c6_dedup_by_id (rows : List RawCommentRow) (tid : String)
    (h2 : 2 ≤ (rows.filter (fun r => r.id == tid)).length) :
    ((collect_comment_rows rows []).filter (fun p => p.2.id == tid)).length = 1 ∧
    (collect_comment_rows rows []).find? (fun p => p.2.id == tid) =
      (rows.find? (fun r => r.id == tid)).map (fun r => (r.level, rowToComment r)) ∧
    (collect_comment_rows rows []).map (fun p => p.2.id) =
      dedupFirst (rows.map (fun r => r.id)) [] := by
  have hmem : tid ∈ rows.map (fun r => r.id) := by
    have hpos : 0 < (rows.filter (fun r => r.id == tid)).length := by omega
    rcases List.exists_mem_of_length_pos hpos with ⟨r, hr⟩
    have := List.mem_filter.mp hr
    rcases this with ⟨hrm, hrid⟩
    have : r.id = tid := by simpa using hrid
    exact this ▸ List.mem_map_of_mem (fun r => r.id) hrm
  refine ⟨?_, collect_find_first rows [] tid (by simp), collect_map_id rows []⟩
  have h1 : ((collect_comment_rows rows []).filter (fun p => p.2.id == tid)).length =
      ((collect_comment_rows rows []).map (fun p => p.2.id)).countP (fun x => x == tid) := by
    rw [← List.countP_eq_length_filter, List.countP_map]
    rfl
  rw [h1, collect_map_id rows []]
  exact dedupFirst_countP_one _ _ tid (by simp) hmem

theorem c6_dedup_by_id_witness :
    ((collect_comment_rows [⟨"a", "u1", "t1", "g1", 0⟩, ⟨"b", "u2", "t2", "g2", 1⟩,
        ⟨"a", "u3", "t3", "g3", 2⟩] []).filter (fun p => p.2.id == "a")).length = 1 ∧
    (collect_comment_rows [⟨"a", "u1", "t1", "g1", 0⟩, ⟨"b", "u2", "t2", "g2", 1⟩,
        ⟨"a", "u3", "t3", "g3", 2⟩] []).find? (fun p => p.2.id == "a") =
      (([⟨"a", "u1", "t1", "g1", 0⟩, ⟨"b", "u2", "t2", "g2", 1⟩,
        ⟨"a", "u3", "t3", "g3", 2⟩] : List RawCommentRow).find?
          (fun r => r.id == "a")).map (fun r => (r.level, rowToComment r)) ∧
    (collect_comment_rows [⟨"a", "u1", "t1", "g1", 0⟩, ⟨"b", "u2", "t2", "g2", 1⟩,
        ⟨"a", "u3", "t3", "g3", 2⟩] []).map (fun p => p.2.id) =
      dedupFirst (([⟨"a", "u1", "t1", "g1", 0⟩, ⟨"b", "u2", "t2", "g2", 1⟩,
        ⟨"a", "u3", "t3", "g3", 2⟩] : List RawCommentRow).map (fun r => r.id)) [] :=
  c6_dedup_by_id [⟨"a", "u1", "t1", "g1", 0⟩, ⟨"b", "u2", "t2", "g2", 1⟩,
    ⟨"a", "u3", "t3", "g3", 2⟩] "a" (by decide)

/-! ## Comment-tree builder (src/hn_client.rs, `build_comments_tree` and
`find_children_recursive`)

`scan_children cs fuel parent_level used i` is the loop of
`find_children_recursive` from index `i` (initially `parent_idx + 1`):
it skips used indices, breaks at a level `≤ parent_level`, consumes a
node at exactly `parent_level + 1` (recursing for that child's own
children before continuing the walk), and skips deeper nodes.  The fuel
decreases by one per index step; every entry point supplies fuel
`≥ cs.length - i`, so the fuel-0 branch coincides with the end of the
list and the embedding computes exactly the Rust recursion. -/

def scan_children (cs : List (Int × HackerNewsComment)) :
    Nat → Int → Finset Nat → Nat → List HackerNewsComment × Finset Nat
  | 0, _, used, _ => ([], used)
  | fuel + 1, parent_level, used, i =>
    match cs[i]? with
    | none => ([], used)
    | some (l, c) =>
      if i ∈ used then scan_children cs fuel parent_level used (i + 1)
      else if l ≤ parent_level then ([], used)
      else if l = parent_level + 1 then
        let r1 := scan_children cs fuel l (insert i used) (i + 1)
        let r2 := scan_children cs fuel parent_level r1.2 (i + 1)
        (setChildren c r1.1 :: r2.1, r2.2)
      else scan_children cs fuel parent_level used (i + 1)

/-- The top-level loop of `build_comments_tree`: consume each unconsumed
level-0 node as a root and attach the children found by
`find_children_recursive`. -/
def build_loop (cs : List (Int × HackerNewsComment)) :
    Nat → Finset Nat → List HackerNewsComment → Nat → List HackerNewsComment
  | 0, _, acc, _ => acc
  | fuel + 1, used, acc, i =>
    match cs[i]? with
    | none => acc
    | some (l, c) =>
      if l = 0 ∧ i ∉ used then
        let r := scan_children cs fuel 0 (insert i used) (i + 1)
        build_loop cs fuel r.2 (acc ++ [setChildren c r.1]) (i + 1)
      else build_loop cs fuel used acc (i + 1)

def build_comments_tree (cs : List (Int × HackerNewsComment)) : List HackerNewsComment :=
  if cs.isEmpty then [] else build_loop cs cs.length ∅ [] 0

/-- Pre-order traversal of a forest recording each visited node's depth
together with its id. -/
def preorderForest : Int → List HackerNewsComment → List (Int × String)
  | _, [] => []
  | d, .mk i _ _ _ _ ch :: rest => (d, i) :: (preorderForest (d + 1) ch ++ preorderForest d rest)

/-! ### Reference machinery for the builder's verification -/

def levelAt (cs : List (Int × HackerNewsComment)) (k : Nat) : Int :=
  match cs[k]? with
  | some p => p.1
  | none => 0

def commentAt (cs : List (Int × HackerNewsComment)) (k : Nat) : HackerNewsComment :=
  match cs[k]? with
  | some p => p.2
  | none => .mk "" "" "" "" 0 []

/-- Canonical forest of a well-formed flat slice whose levels all exceed
`L` and whose head sits at exactly `L + 1`: the head owns the following
maximal run of deeper nodes, the rest are its siblings. -/
def forestOf : Int → List (Int × HackerNewsComment) → List HackerNewsComment
  | _, [] => []
  | L, (l, c) :: t =>
    if l = L + 1 then
      setChildren c (forestOf (L + 1) (t.takeWhile fun p => decide (L + 1 < p.1))) ::
        forestOf L (t.dropWhile fun p => decide (L + 1 < p.1))
    else []
termination_by _ s => s.length
decreasing_by
  · have h1 : (t.takeWhile fun p : Int × HackerNewsComment => decide (L + 1 < p.1)).length ≤
        t.length := (List.takeWhile_prefix _).length_le
    simp only [List.length_cons]
    omega
  · have h2 : (t.dropWhile fun p : Int × HackerNewsComment => decide (L + 1 < p.1)).length ≤
        t.length := (List.dropWhile_suffix _).length_le
    simp only [List.length_cons]
    omega

/-- Indices `< m` that are not junk: the consumed set after the prefix
up to `m` has been processed. -/
def usedUpTo (J : Finset Nat) (m : Nat) : Finset Nat :=
  (Finset.range m).filter (fun k => k ∉ J)

/-- First non-junk index `≥ i` (or `n`). -/
def firstEffFrom (n : Nat) (J : Finset Nat) (i : Nat) : Nat :=
  if h : i < n then (if i ∈ J then firstEffFrom n J (i + 1) else i) else n
termination_by n - i
decreasing_by omega

/-- Last non-junk index `< i`, if any. -/
def lastEffBefore (J : Finset Nat) : Nat → Option Nat
  | 0 => none
  | i + 1 => if i ∈ J then lastEffBefore J i else some i

/-- First index `≥ i` that is non-junk with level `≤ L` (where a scan at
parent level `L` breaks), or `n`. -/
def stopFrom (cs : List (Int × HackerNewsComment)) (J : Finset Nat) (L : Int) (i : Nat) : Nat :=
  if h : i < cs.length then
    (if i ∉ J ∧ levelAt cs i ≤ L then i else stopFrom cs J L (i + 1))
  else cs.length
termination_by cs.length - i
decreasing_by omega

def effIdx (J : Finset Nat) (i j : Nat) : List Nat :=
  (List.range' i (j - i)).filter (fun k => decide (k ∉ J))

def effPairs (cs : List (Int × HackerNewsComment)) (J : Finset Nat) (i j : Nat) :
    List (Int × HackerNewsComment) :=
  (effIdx J i j).map (fun k => (levelAt cs k, commentAt cs k))

/-! ### Basic lemmas about the reference machinery -/

theorem getPair_eq (cs : List (Int × HackerNewsComment)) (i : Nat) (h : i < cs.length) :
    cs[i]? = some (levelAt cs i, commentAt cs i) := by
  unfold levelAt commentAt
  rw [List.getElem?_eq_getElem h]

theorem mem_usedUpTo (J : Finset Nat) (m k : Nat) :
    k ∈ usedUpTo J m ↔ k < m ∧ k ∉ J := by
  simp [usedUpTo]

theorem not_mem_usedUpTo_self (J : Finset Nat) (i : Nat) : i ∉ usedUpTo J i := by
  simp [mem_usedUpTo]

theorem usedUpTo_junk (J : Finset Nat) (i : Nat) (h : i ∈ J) :
    usedUpTo J (i + 1) = usedUpTo J i := by
  ext k
  simp only [mem_usedUpTo]
  constructor
  · rintro ⟨hk, hkJ⟩
    refine ⟨?_, hkJ⟩
    rcases Nat.lt_succ_iff_lt_or_eq.mp hk with h' | h'
    · exact h'
    · exact absurd (h' ▸ h) hkJ
  · rintro ⟨hk, hkJ⟩
    exact ⟨Nat.lt_succ_of_lt hk, hkJ⟩

theorem usedUpTo_insert (J : Finset Nat) (i : Nat) (h : i ∉ J) :
    insert i (usedUpTo J i) = usedUpTo J (i + 1) := by
  ext k
  simp only [Finset.mem_insert, mem_usedUpTo]
  constructor
  · rintro (rfl | ⟨hk, hkJ⟩)
    · exact ⟨Nat.lt_succ_self _, h⟩
    · exact ⟨Nat.lt_succ_of_lt hk, hkJ⟩
  · rintro ⟨hk, hkJ⟩
    rcases Nat.lt_succ_iff_lt_or_eq.mp hk with h' | h'
    · exact Or.inr ⟨h', hkJ⟩
    · exact Or.inl h'

theorem firstEff_of_eff (n : Nat) (J : Finset Nat) (i : Nat) (h1 : i < n) (h2 : i ∉ J) :
    firstEffFrom n J i = i := by
  rw [firstEffFrom, dif_pos h1, if_neg h2]

theorem firstEff_of_junk (n : Nat) (J : Finset Nat) (i : Nat) (h1 : i < n) (h2 : i ∈ J) :
    firstEffFrom n J i = firstEffFrom n J (i + 1) := by
  conv_lhs => rw [firstEffFrom]
  rw [dif_pos h1, if_pos h2]

theorem firstEff_of_ge (n : Nat) (J : Finset Nat) (i : Nat) (h : n ≤ i) :
    firstEffFrom n J i = n := by
  rw [firstEffFrom, dif_neg (by omega)]

theorem lastEff_junk (J : Finset Nat) (i : Nat) (h : i ∈ J) :
    lastEffBefore J (i + 1) = lastEffBefore J i := by
  simp [lastEffBefore, h]

theorem lastEff_eff (J : Finset Nat) (i : Nat) (h : i ∉ J) :
    lastEffBefore J (i + 1) = some i := by
  simp [lastEffBefore, h]

theorem lastEff_spec (J : Finset Nat) : ∀ j m, lastEffBefore J j = some m →
    m < j ∧ m ∉ J ∧ ∀ k, m < k → k < j → k ∈ J := by
  intro j
  induction j with
  | zero => intro m h; exact absurd h (by simp [lastEffBefore])
  | succ i ih =>
    intro m h
    by_cases hi : i ∈ J
    · rw [lastEff_junk J i hi] at h
      rcases ih m h with ⟨h1, h2, h3⟩
      refine ⟨by omega, h2, ?_⟩
      intro k hk1 hk2
      rcases Nat.lt_succ_iff_lt_or_eq.mp hk2 with h' | h'
      · exact h3 k hk1 h'
      · exact h' ▸ hi
    · rw [lastEff_eff J i hi] at h
      obtain rfl : i = m := by injection h
      exact ⟨Nat.lt_succ_self _, hi, fun k hk1 hk2 => by omega⟩

theorem lastEff_ge (J : Finset Nat) : ∀ j i, i < j → i ∉ J →
    ∃ m, lastEffBefore J j = some m ∧ i ≤ m ∧ m < j ∧ m ∉ J := by
  intro j
  induction j with
  | zero => intro i h _; omega
  | succ j' ih =>
    intro i hi hiJ
    by_cases hj : j' ∈ J
    · rw [lastEff_junk J j' hj]
      have hlt : i < j' := by
        rcases Nat.lt_succ_iff_lt_or_eq.mp hi with h | h
        · exact h
        · exact absurd hj (h ▸ hiJ)
      rcases ih i hlt hiJ with ⟨m, h1, h2, h3, h4⟩
      exact ⟨m, h1, h2, by omega, h4⟩
    · rw [lastEff_eff J j' hj]
      exact ⟨j', rfl, by omega, by omega, hj⟩

theorem stop_of_ge (cs : List (Int × HackerNewsComment)) (J : Finset Nat) (L : Int) (i : Nat)
    (h : cs.length ≤ i) : stopFrom cs J L i = cs.length := by
  rw [stopFrom, dif_neg (by omega)]

theorem stop_of_cond (cs : List (Int × HackerNewsComment)) (J : Finset Nat) (L : Int) (i : Nat)
    (h1 : i < cs.length) (h2 : i ∉ J ∧ levelAt cs i ≤ L) : stopFrom cs J L i = i := by
  rw [stopFrom, dif_pos h1, if_pos h2]

theorem stop_of_not_cond (cs : List (Int × HackerNewsComment)) (J : Finset Nat) (L : Int)
    (i : Nat) (h1 : i < cs.length) (h2 : ¬(i ∉ J ∧ levelAt cs i ≤ L)) :
    stopFrom cs J L i = stopFrom cs J L (i + 1) := by
  conv_lhs => rw [stopFrom]
  rw [dif_pos h1, if_neg h2]

theorem stop_spec (cs : List (Int × HackerNewsComment)) (J : Finset Nat) (L : Int) :
    ∀ i, i ≤ cs.length →
    i ≤ stopFrom cs J L i ∧ stopFrom cs J L i ≤ cs.length ∧
    (stopFrom cs J L i < cs.length →
      (stopFrom cs J L i ∉ J ∧ levelAt cs (stopFrom cs J L i) ≤ L)) ∧
    (∀ k, i ≤ k → k < stopFrom cs J L i → ¬(k ∉ J ∧ levelAt cs k ≤ L)) := by
  have main : ∀ d i, cs.length - i ≤ d → i ≤ cs.length →
      i ≤ stopFrom cs J L i ∧ stopFrom cs J L i ≤ cs.length ∧
      (stopFrom cs J L i < cs.length →
        (stopFrom cs J L i ∉ J ∧ levelAt cs (stopFrom cs J L i) ≤ L)) ∧
      (∀ k, i ≤ k → k < stopFrom cs J L i → ¬(k ∉ J ∧ levelAt cs k ≤ L)) := by
    intro d
    induction d with
    | zero =>
      intro i h1 h2
      have he : i = cs.length := by omega
      rw [he, stop_of_ge cs J L _ (le_refl _)]
      exact ⟨le_refl _, le_refl _, by omega, fun k hk1 hk2 => by omega⟩
    | succ d ih =>
      intro i h1 h2
      rcases Nat.lt_or_ge i cs.length with h | h
      · by_cases hc : i ∉ J ∧ levelAt cs i ≤ L
        · rw [stop_of_cond cs J L i h hc]
          exact ⟨le_refl _, by omega, fun _ => hc, fun k hk1 hk2 => by omega⟩
        · rw [stop_of_not_cond cs J L i h hc]
          rcases ih (i + 1) (by omega) (by omega) with ⟨g1, g2, g3, g4⟩
          refine ⟨by omega, g2, g3, ?_⟩
          intro k hk1 hk2
          rcases Nat.lt_or_ge k (i + 1) with hk | hk
          · have : k = i := by omega
            exact this ▸ hc
          · exact g4 k hk hk2
      · rw [stop_of_ge cs J L i h]
        exact ⟨by omega, le_refl _, by omega, fun k hk1 hk2 => by omega⟩
  exact fun i h => main (cs.length - i) i (le_refl _) h

theorem stop_congr (cs : List (Int × HackerNewsComment)) (J : Finset Nat) (L : Int) :
    ∀ d i m, m - i ≤ d → i ≤ m → m ≤ cs.length →
    (∀ k, i ≤ k → k < m → ¬(k ∉ J ∧ levelAt cs k ≤ L)) →
    stopFrom cs J L i = stopFrom cs J L m := by
  intro d
  induction d with
  | zero =>
    intro i m h1 h2 h3 _
    have : i = m := by omega
    rw [this]
  | succ d ih =>
    intro i m h1 h2 h3 hcond
    rcases Nat.lt_or_ge i m with h | h
    · rw [stop_of_not_cond cs J L i (by omega) (hcond i (le_refl _) h)]
      exact ih (i + 1) m (by omega) (by omega) h3
        (fun k hk1 hk2 => hcond k (by omega) hk2)
    · have : i = m := by omega
      rw [this]

theorem effIdx_self (J : Finset Nat) (i : Nat) : effIdx J i i = [] := by
  simp [effIdx]

theorem effPairs_self (cs : List (Int × HackerNewsComment)) (J : Finset Nat) (i : Nat) :
    effPairs cs J i i = [] := by
  simp [effPairs, effIdx_self]

theorem effIdx_cons_eff (J : Finset Nat) (i j : Nat) (h1 : i < j) (h2 : i ∉ J) :
    effIdx J i j = i :: effIdx J (i + 1) j := by
  unfold effIdx
  have e : j - i = (j - (i + 1)) + 1 := by omega
  rw [e, List.range'_succ]
  rw [List.filter_cons_of_pos (by simpa using h2)]

theorem effIdx_cons_junk (J : Finset Nat) (i j : Nat) (h1 : i < j) (h2 : i ∈ J) :
    effIdx J i j = effIdx J (i + 1) j := by
  unfold effIdx
  have e : j - i = (j - (i + 1)) + 1 := by omega
  rw [e, List.range'_succ]
  rw [List.filter_cons_of_neg (by simpa using h2)]

theorem effIdx_append (J : Finset Nat) (i m j : Nat) (h1 : i ≤ m) (h2 : m ≤ j) :
    effIdx J i j = effIdx J i m ++ effIdx J m j := by
  unfold effIdx
  rw [← List.filter_append]
  have h3 : List.range' i (m - i) ++ List.range' m (j - m) = List.range' i (j - i) := by
    have h4 := List.range'_append_1 i (m - i) (j - m)
    rw [show i + (m - i) = m by omega] at h4
    rw [h4]
    congr 1
    omega
  rw [h3]

theorem effPairs_cons_eff (cs : List (Int × HackerNewsComment)) (J : Finset Nat) (i j : Nat)
    (h1 : i < j) (h2 : i ∉ J) :
    effPairs cs J i j = (levelAt cs i, commentAt cs i) :: effPairs cs J (i + 1) j := by
  unfold effPairs
  rw [effIdx_cons_eff J i j h1 h2, List.map_cons]

theorem effPairs_cons_junk (cs : List (Int × HackerNewsComment)) (J : Finset Nat) (i j : Nat)
    (h1 : i < j) (h2 : i ∈ J) : effPairs cs J i j = effPairs cs J (i + 1) j := by
  unfold effPairs
  rw [effIdx_cons_junk J i j h1 h2]

theorem effPairs_append (cs : List (Int × HackerNewsComment)) (J : Finset Nat) (i m j : Nat)
    (h1 : i ≤ m) (h2 : m ≤ j) :
    effPairs cs J i j = effPairs cs J i m ++ effPairs cs J m j := by
  unfold effPairs
  rw [effIdx_append J i m j h1 h2, List.map_append]

theorem mem_effIdx (J : Finset Nat) (i j k : Nat) (h : i ≤ j) :
    k ∈ effIdx J i j ↔ (i ≤ k ∧ k < j ∧ k ∉ J) := by
  unfold effIdx
  rw [List.mem_filter]
  rw [List.mem_range']
  constructor
  · rintro ⟨⟨q, hq, rfl⟩, hk⟩
    refine ⟨by omega, by omega, by simpa using hk⟩
  · rintro ⟨hk1, hk2, hk3⟩
    exact ⟨⟨k - i, by omega, by omega⟩, by simpa using hk3⟩

@[simp] theorem forestOf_nil (L : Int) : forestOf L [] = [] := by
  rw [forestOf]

theorem forestOf_cons_split (L : Int) (c : HackerNewsComment)
    (inner rest : List (Int × HackerNewsComment))
    (hinner : ∀ p ∈ inner, L + 1 < p.1)
    (hrest : ∀ p, rest.head? = some p → ¬(L + 1 < p.1)) :
    forestOf L ((L + 1, c) :: (inner ++ rest)) =
      setChildren c (forestOf (L + 1) inner) :: forestOf L rest := by
  rw [forestOf, if_pos rfl]
  have ht : (inner ++ rest).takeWhile (fun p => decide (L + 1 < p.1)) = inner := by
    rw [takeWhile_append_of_all inner rest (fun p hp => by simpa using hinner p hp)]
    cases hr : rest with
    | nil => simp
    | cons r t =>
      rw [List.takeWhile_cons_of_neg]
      · simp
      · simpa using hrest r (by rw [hr]; rfl)
  have hd : (inner ++ rest).dropWhile (fun p => decide (L + 1 < p.1)) = rest := by
    rw [dropWhile_append_of_all inner rest (fun p hp => by simpa using hinner p hp)]
    cases hr : rest with
    | nil => simp
    | cons r t =>
      rw [List.dropWhile_cons_of_neg]
      simpa using hrest r (by rw [hr]; rfl)
  rw [ht, hd]

theorem mem_effPairs_level (cs : List (Int × HackerNewsComment)) (J : Finset Nat)
    (i j : Nat) (h : i ≤ j) (p : Int × HackerNewsComment) (hp : p ∈ effPairs cs J i j) :
    ∃ k, i ≤ k ∧ k < j ∧ k ∉ J ∧ p.1 = levelAt cs k := by
  unfold effPairs at hp
  rcases List.mem_map.mp hp with ⟨k, hk, rfl⟩
  rcases (mem_effIdx J i j k h).mp hk with ⟨h1, h2, h3⟩
  exact ⟨k, h1, h2, h3, rfl⟩

/-- A scan walking across a region of consumed or too-deep indices only
skips, advancing the position and spending fuel. -/
theorem scan_skip (cs : List (Int × HackerNewsComment)) (L : Int) (u : Finset Nat) :
    ∀ d a f, a + d ≤ cs.length → d ≤ f →
    (∀ k, a ≤ k → k < a + d → (k ∈ u ∨ L + 1 < levelAt cs k)) →
    scan_children cs f L u a = scan_children cs (f - d) L u (a + d) := by
  intro d
  induction d with
  | zero => intro a f _ _ _; simp
  | succ d ih =>
    intro a f h1 h2 hcond
    obtain ⟨f', rfl⟩ : ∃ f', f = f' + 1 := ⟨f - 1, by omega⟩
    have ha : a < cs.length := by omega
    have hg := getPair_eq cs a ha
    have hstep : scan_children cs (f' + 1) L u a = scan_children cs f' L u (a + 1) := by
      by_cases hu : a ∈ u
      · simp only [scan_children, hg, if_pos hu]
      · have hd : L + 1 < levelAt cs a := by
          rcases hcond a (le_refl _) (by omega) with h | h
          · exact absurd h hu
          · exact h
        simp only [scan_children, hg]
        rw [if_neg hu, if_neg (by omega : ¬(levelAt cs a ≤ L)),
          if_neg (by omega : ¬(levelAt cs a = L + 1))]
    have e1 : f' + 1 - (d + 1) = f' - d := by omega
    have e2 : a + (d + 1) = (a + 1) + d := by omega
    rw [e1, e2, hstep]
    exact ih (a + 1) f' (by omega) (by omega) (fun k hk1 hk2 => hcond k (by omega) (by omega))

/-- The top loop walking across a region of consumed or nonzero-level
indices only skips. -/
theorem build_skip (cs : List (Int × HackerNewsComment)) (u : Finset Nat)
    (acc : List HackerNewsComment) :
    ∀ d a f, a + d ≤ cs.length → d ≤ f →
    (∀ k, a ≤ k → k < a + d → (k ∈ u ∨ levelAt cs k ≠ 0)) →
    build_loop cs f u acc a = build_loop cs (f - d) u acc (a + d) := by
  intro d
  induction d with
  | zero => intro a f _ _ _; simp
  | succ d ih =>
    intro a f h1 h2 hcond
    obtain ⟨f', rfl⟩ : ∃ f', f = f' + 1 := ⟨f - 1, by omega⟩
    have ha : a < cs.length := by omega
    have hg := getPair_eq cs a ha
    have hstep : build_loop cs (f' + 1) u acc a = build_loop cs f' u acc (a + 1) := by
      have hnc : ¬(levelAt cs a = 0 ∧ a ∉ u) := by
        rcases hcond a (le_refl _) (by omega) with h | h
        · intro hc; exact hc.2 h
        · intro hc; exact h hc.1
      simp only [build_loop, hg]
      rw [if_neg hnc]
    have e1 : f' + 1 - (d + 1) = f' - d := by omega
    have e2 : a + (d + 1) = (a + 1) + d := by omega
    rw [e1, e2, hstep]
    exact ih (a + 1) f' (by omega) (by omega) (fun k hk1 hk2 => hcond k (by omega) (by omega))

/-- Unfolding of one consuming step of `find_children_recursive`. -/
theorem scan_children_consume (cs : List (Int × HackerNewsComment)) (f : Nat) (L : Int)
    (u : Finset Nat) (i : Nat) (l : Int) (c : HackerNewsComment)
    (hg : cs[i]? = some (l, c)) (hu : i ∉ u) (hbr : ¬(l ≤ L)) (hlv : l = L + 1)
    (r1 r2 : List HackerNewsComment × Finset Nat)
    (hr1 : scan_children cs f l (insert i u) (i + 1) = r1)
    (hr2 : scan_children cs f L r1.2 (i + 1) = r2) :
    scan_children cs (f + 1) L u i = (setChildren c r1.1 :: r2.1, r2.2) := by
  simp only [scan_children, hg]
  rw [if_neg hu, if_neg hbr, if_pos hlv, hr1, hr2]

/-- Characterization of `find_children_recursive` on a flat list whose
non-junk part is well formed and whose junk nodes are level-gapped
relative to their closest preceding non-junk node.  Starting at `i` with
the frontier state `usedUpTo J i`, the scan consumes exactly the
non-junk indices up to the first non-junk index with level `≤ L` and
produces the canonical forest of that slice. -/
theorem scan_children_eq (cs : List (Int × HackerNewsComment)) (J : Finset Nat)
    (G2 : ∀ j ∈ J, j < cs.length → ∃ k, lastEffBefore J j = some k ∧
      levelAt cs k + 1 < levelAt cs j)
    (G3 : ∀ k, k < cs.length → k ∉ J → firstEffFrom cs.length J (k + 1) < cs.length →
      levelAt cs (firstEffFrom cs.length J (k + 1)) ≤ levelAt cs k + 1) :
    ∀ fuel i L, cs.length ≤ i + fuel → i ≤ cs.length →
    (firstEffFrom cs.length J i < cs.length →
      levelAt cs (firstEffFrom cs.length J i) ≤ L + 1) →
    (∀ m, lastEffBefore J i = some m → L ≤ levelAt cs m) →
    scan_children cs fuel L (usedUpTo J i) i =
      (forestOf L (effPairs cs J i (stopFrom cs J L i)), usedUpTo J (stopFrom cs J L i)) := by
  intro fuel
  induction fuel using Nat.strong_induction_on with
  | _ fuel ih =>
    intro i L hfuel hin hP1 hP2
    rcases Nat.lt_or_ge i cs.length with hlt | hge
    · obtain ⟨f', rfl⟩ : ∃ f', fuel = f' + 1 := ⟨fuel - 1, by omega⟩
      have hg := getPair_eq cs i hlt
      by_cases hiJ : i ∈ J
      · -- junk node: transparently skipped
        obtain ⟨k, hk, hkl⟩ := G2 i hiJ hlt
        have hkL : L ≤ levelAt cs k := hP2 k hk
        have hstep : scan_children cs (f' + 1) L (usedUpTo J i) i =
            scan_children cs f' L (usedUpTo J i) (i + 1) := by
          simp only [scan_children, hg]
          rw [if_neg (not_mem_usedUpTo_self J i),
            if_neg (by omega : ¬(levelAt cs i ≤ L)),
            if_neg (by omega : ¬(levelAt cs i = L + 1))]
        have hstop : stopFrom cs J L i = stopFrom cs J L (i + 1) :=
          stop_of_not_cond cs J L i hlt (by intro hc; exact hc.1 hiJ)
        have huu : usedUpTo J i = usedUpTo J (i + 1) := (usedUpTo_junk J i hiJ).symm
        have hfe : firstEffFrom cs.length J i = firstEffFrom cs.length J (i + 1) :=
          firstEff_of_junk cs.length J i hlt hiJ
        have hleb : lastEffBefore J (i + 1) = lastEffBefore J i := lastEff_junk J i hiJ
        rw [hstep, huu, hstop]
        have hrec := ih f' (by omega) (i + 1) L (by omega) (by omega)
          (by rw [← hfe]; exact hP1) (by rw [hleb]; exact hP2)
        rw [hrec]
        rcases stop_spec cs J L (i + 1) (by omega) with ⟨s1, _, _, _⟩
        rw [effPairs_cons_junk cs J i (stopFrom cs J L (i + 1)) (by omega) hiJ]
      · -- effective node at i
        have hfe : firstEffFrom cs.length J i = i := firstEff_of_eff _ _ _ hlt hiJ
        have hle : levelAt cs i ≤ L + 1 := by
          have := hP1 (by rw [hfe]; exact hlt)
          rwa [hfe] at this
        by_cases hbr : levelAt cs i ≤ L
        · -- break at i
          have hstop : stopFrom cs J L i = i := stop_of_cond cs J L i hlt ⟨hiJ, hbr⟩
          simp only [scan_children, hg]
          rw [if_neg (not_mem_usedUpTo_self J i), if_pos hbr, hstop, effPairs_self,
            forestOf_nil]
        · -- consume i as a child
          have hlv : levelAt cs i = L + 1 := by omega
          rcases stop_spec cs J (L + 1) (i + 1) (by omega) with ⟨c1, c2, c3, c4⟩
          have hchild := ih f' (by omega) (i + 1) (L + 1) (by omega) (by omega)
            (by
              intro hlt2
              have := G3 i hlt hiJ hlt2
              omega)
            (by
              intro m hm
              rw [lastEff_eff J i hiJ] at hm
              obtain rfl : i = m := by injection hm
              omega)
          set j1 := stopFrom cs J (L + 1) (i + 1) with hj1
          have hcondskip : ∀ k, i + 1 ≤ k → k < (i + 1) + (j1 - (i + 1)) →
              (k ∈ usedUpTo J j1 ∨ L + 1 < levelAt cs k) := by
            intro k hk1 hk2
            have hkj1 : k < j1 := by omega
            by_cases hkJ : k ∈ J
            · right
              have hkn : k < cs.length := by omega
              obtain ⟨m, hm, hml⟩ := G2 k hkJ hkn
              obtain ⟨m', hm', hmi, hmk, hmJ⟩ := lastEff_ge J k i (by omega) hiJ
              rw [hm] at hm'
              obtain rfl : m = m' := by injection hm'
              rcases Nat.lt_or_ge i m with hmp | hmp
              · have hx := c4 m (by omega) (by omega)
                have : ¬(levelAt cs m ≤ L + 1) := fun hcl => hx ⟨hmJ, hcl⟩
                omega
              · have hmi' : m = i := by omega
                rw [hmi'] at hml
                omega
            · exact Or.inl ((mem_usedUpTo J j1 k).mpr ⟨hkj1, hkJ⟩)
          have hskip := scan_skip cs L (usedUpTo J j1) (j1 - (i + 1)) (i + 1) f'
            (by omega) (by omega) hcondskip
          rw [show (i + 1) + (j1 - (i + 1)) = j1 by omega] at hskip
          have hcont := ih (f' - (j1 - (i + 1))) (by omega) j1 L (by omega) c2
            (by
              intro hlt2
              have hj1n : j1 < cs.length := by
                by_contra hno
                rw [firstEff_of_ge cs.length J j1 (by omega)] at hlt2
                omega
              rcases c3 hj1n with ⟨cj, cl⟩
              rw [firstEff_of_eff cs.length J j1 hj1n cj]
              omega)
            (by
              intro m hm
              obtain ⟨m', hm', hmi, hmk, hmJ⟩ := lastEff_ge J j1 i (by omega) hiJ
              rw [hm] at hm'
              obtain rfl : m = m' := by injection hm'
              rcases Nat.lt_or_ge i m with hmp | hmp
              · have hx := c4 m (by omega) (by omega)
                have : ¬(levelAt cs m ≤ L + 1) := fun hcl => hx ⟨hmJ, hcl⟩
                omega
              · have hmi' : m = i := by omega
                rw [hmi']
                omega)
          have hstopeq : stopFrom cs J L i = stopFrom cs J L j1 := by
            apply stop_congr cs J L (j1 - i) i j1 (le_refl _) (by omega) c2
            intro k hk1 hk2 hcn
            rcases Nat.lt_or_ge i k with hkp | hkp
            · exact c4 k (by omega) (by omega) ⟨hcn.1, by have := hcn.2; omega⟩
            · have hki : k = i := by omega
              rw [hki] at hcn
              exact hbr hcn.2
          rcases stop_spec cs J L j1 c2 with ⟨d1, d2, d3, _⟩
          have hchild' : scan_children cs f' (levelAt cs i) (insert i (usedUpTo J i))
              (i + 1) = (forestOf (L + 1) (effPairs cs J (i + 1) j1), usedUpTo J j1) := by
            rw [hlv, usedUpTo_insert J i hiJ]
            exact hchild
          rw [scan_children_consume cs f' L (usedUpTo J i) i (levelAt cs i)
            (commentAt cs i) hg (not_mem_usedUpTo_self J i) hbr hlv
            (forestOf (L + 1) (effPairs cs J (i + 1) j1), usedUpTo J j1)
            (forestOf L (effPairs cs J j1 (stopFrom cs J L j1)),
              usedUpTo J (stopFrom cs J L j1))
            hchild' (hskip.trans hcont)]
          rw [hstopeq]
          have hasm : forestOf L (effPairs cs J i (stopFrom cs J L j1)) =
              setChildren (commentAt cs i)
                (forestOf (L + 1) (effPairs cs J (i + 1) j1)) ::
              forestOf L (effPairs cs J j1 (stopFrom cs J L j1)) := by
            rw [effPairs_cons_eff cs J i (stopFrom cs J L j1) (by omega) hiJ]
            rw [effPairs_append cs J (i + 1) j1 (stopFrom cs J L j1) (by omega) d1]
            rw [hlv]
            apply forestOf_cons_split
            · intro p hp
              obtain ⟨k, hk1, hk2, hk3, hpl⟩ :=
                mem_effPairs_level cs J (i + 1) j1 (by omega) p hp
              have hx := c4 k hk1 hk2
              have : ¬(levelAt cs k ≤ L + 1) := fun hcl => hx ⟨hk3, hcl⟩
              rw [hpl]
              omega
            · intro p hp
              rcases Nat.lt_or_ge j1 (stopFrom cs J L j1) with hj | hj
              · have hj1n : j1 < cs.length := by omega
                rcases c3 hj1n with ⟨cj, cl⟩
                rw [effPairs_cons_eff cs J j1 (stopFrom cs J L j1) hj cj] at hp
                rw [List.head?_cons] at hp
                obtain rfl : (levelAt cs j1, commentAt cs j1) = p := by injection hp
                simp only []
                omega
              · have hjj : j1 = stopFrom cs J L j1 := by omega
                rw [← hjj, effPairs_self] at hp
                simp at hp
          rw [hasm]
    · -- i = cs.length: nothing to scan
      have hieq : i = cs.length := by omega
      subst hieq
      rw [stop_of_ge cs J L _ (le_refl _), effPairs_self, forestOf_nil]
      cases fuel with
      | zero => simp only [scan_children]
      | succ f =>
        have hg : cs[cs.length]? = none := List.getElem?_eq_none (le_refl _)
        simp only [scan_children, hg]

/-- Characterization of the whole top loop of `build_comments_tree`:
on a list whose non-junk part is well formed (nonnegative levels, first
effective level 0) with level-gapped junk, the loop builds the canonical
forest of the effective slice. -/
theorem build_loop_eq (cs : List (Int × HackerNewsComment)) (J : Finset Nat)
    (G1 : ∀ k, k < cs.length → k ∉ J → 0 ≤ levelAt cs k)
    (G2 : ∀ j ∈ J, j < cs.length → ∃ k, lastEffBefore J j = some k ∧
      levelAt cs k + 1 < levelAt cs j)
    (G3 : ∀ k, k < cs.length → k ∉ J → firstEffFrom cs.length J (k + 1) < cs.length →
      levelAt cs (firstEffFrom cs.length J (k + 1)) ≤ levelAt cs k + 1) :
    ∀ fuel i acc, cs.length ≤ i + fuel → i ≤ cs.length →
    (firstEffFrom cs.length J i < cs.length →
      levelAt cs (firstEffFrom cs.length J i) ≤ 0) →
    build_loop cs fuel (usedUpTo J i) acc i =
      acc ++ forestOf (-1) (effPairs cs J i cs.length) := by
  have hjunkpos : ∀ k ∈ J, k < cs.length → 0 < levelAt cs k := by
    intro k hk hkn
    obtain ⟨m, hm, hml⟩ := G2 k hk hkn
    rcases lastEff_spec J k m hm with ⟨hm1, hm2, _⟩
    have := G1 m (by omega) hm2
    omega
  intro fuel
  induction fuel using Nat.strong_induction_on with
  | _ fuel ih =>
    intro i acc hfuel hin hP1
    rcases Nat.lt_or_ge i cs.length with hlt | hge
    · obtain ⟨f', rfl⟩ : ∃ f', fuel = f' + 1 := ⟨fuel - 1, by omega⟩
      have hg := getPair_eq cs i hlt
      by_cases hiJ : i ∈ J
      · -- junk node: skipped by the root loop, since its level is positive
        have hne0 : levelAt cs i ≠ 0 := by
          have := hjunkpos i hiJ hlt
          omega
        have hstep : build_loop cs (f' + 1) (usedUpTo J i) acc i =
            build_loop cs f' (usedUpTo J i) acc (i + 1) := by
          simp only [build_loop, hg]
          rw [if_neg (by intro hc; exact hne0 hc.1)]
        rw [hstep, show usedUpTo J i = usedUpTo J (i + 1) from (usedUpTo_junk J i hiJ).symm]
        have hrec := ih f' (by omega) (i + 1) acc (by omega) (by omega)
          (by rw [← firstEff_of_junk cs.length J i hlt hiJ]; exact hP1)
        rw [hrec, effPairs_cons_junk cs J i cs.length hlt hiJ]
      · -- effective node: level 0, consumed as a root
        have hfe := firstEff_of_eff cs.length J i hlt hiJ
        have hle0 : levelAt cs i ≤ 0 := by
          have := hP1 (by rw [hfe]; exact hlt)
          rwa [hfe] at this
        have h0 : levelAt cs i = 0 := le_antisymm hle0 (G1 i hlt hiJ)
        rcases stop_spec cs J 0 (i + 1) (by omega) with ⟨c1, c2, c3, c4⟩
        set j1 := stopFrom cs J 0 (i + 1) with hj1
        have hscan := scan_children_eq cs J G2 G3 f' (i + 1) 0 (by omega) (by omega)
          (by
            intro hlt2
            have := G3 i hlt hiJ hlt2
            omega)
          (by
            intro m hm
            rw [lastEff_eff J i hiJ] at hm
            obtain rfl : i = m := by injection hm
            omega)
        rw [← hj1] at hscan
        have hstep : build_loop cs (f' + 1) (usedUpTo J i) acc i =
            build_loop cs f' (usedUpTo J j1)
              (acc ++ [setChildren (commentAt cs i)
                (forestOf 0 (effPairs cs J (i + 1) j1))]) (i + 1) := by
          simp only [build_loop, hg]
          rw [if_pos ⟨h0, not_mem_usedUpTo_self J i⟩]
          rw [usedUpTo_insert J i hiJ, hscan]
        rw [hstep]
        have hbs := build_skip cs (usedUpTo J j1)
          (acc ++ [setChildren (commentAt cs i)
            (forestOf 0 (effPairs cs J (i + 1) j1))])
          (j1 - (i + 1)) (i + 1) f' (by omega) (by omega)
          (by
            intro k hk1 hk2
            have hkj1 : k < j1 := by omega
            by_cases hkJ : k ∈ J
            · right
              have := hjunkpos k hkJ (by omega)
              omega
            · exact Or.inl ((mem_usedUpTo J j1 k).mpr ⟨hkj1, hkJ⟩))
        rw [show (i + 1) + (j1 - (i + 1)) = j1 by omega] at hbs
        rw [hbs]
        have hrec := ih (f' - (j1 - (i + 1))) (by omega) j1
          (acc ++ [setChildren (commentAt cs i)
            (forestOf 0 (effPairs cs J (i + 1) j1))])
          (by omega) c2
          (by
            intro hlt2
            have hj1n : j1 < cs.length := by
              by_contra hno
              rw [firstEff_of_ge cs.length J j1 (by omega)] at hlt2
              omega
            rcases c3 hj1n with ⟨cj, cl⟩
            rw [firstEff_of_eff cs.length J j1 hj1n cj]
            omega)
        rw [hrec, List.append_assoc]
        congr 1
        have hasm : forestOf (-1) (effPairs cs J i cs.length) =
            setChildren (commentAt cs i) (forestOf 0 (effPairs cs J (i + 1) j1)) ::
            forestOf (-1) (effPairs cs J j1 cs.length) := by
          rw [effPairs_cons_eff cs J i cs.length hlt hiJ]
          rw [effPairs_append cs J (i + 1) j1 cs.length (by omega) c2]
          rw [h0]
          have h01 : (0 : Int) = -1 + 1 := by decide
          rw [h01]
          apply forestOf_cons_split
          · intro p hp
            obtain ⟨k, hk1, hk2, hk3, hpl⟩ :=
              mem_effPairs_level cs J (i + 1) j1 (by omega) p hp
            have hx := c4 k hk1 hk2
            have : ¬(levelAt cs k ≤ 0) := fun hcl => hx ⟨hk3, hcl⟩
            rw [hpl]
            omega
          · intro p hp
            rcases Nat.lt_or_ge j1 cs.length with hj | hj
            · rcases c3 hj with ⟨cj, cl⟩
              rw [effPairs_cons_eff cs J j1 cs.length hj cj] at hp
              rw [List.head?_cons] at hp
              obtain rfl : (levelAt cs j1, commentAt cs j1) = p := by injection hp
              simp only []
              omega
            · have hjj : j1 = cs.length := by omega
              rw [hjj, effPairs_self] at hp
              simp at hp
        rw [hasm]
        rw [List.singleton_append]
    · have hieq : i = cs.length := by omega
      subst hieq
      rw [effPairs_self, forestOf_nil, List.append_nil]
      cases fuel with
      | zero => simp only [build_loop]
      | succ f =>
        have hg : cs[cs.length]? = none := List.getElem?_eq_none (le_refl _)
        simp only [build_loop, hg]

/-- `build_comments_tree` computes the canonical forest of the effective
(non-junk) slice of its input. -/
theorem build_eq_forest (cs : List (Int × HackerNewsComment)) (J : Finset Nat)
    (G1 : ∀ k, k < cs.length → k ∉ J → 0 ≤ levelAt cs k)
    (G2 : ∀ j ∈ J, j < cs.length → ∃ k, lastEffBefore J j = some k ∧
      levelAt cs k + 1 < levelAt cs j)
    (G3 : ∀ k, k < cs.length → k ∉ J → firstEffFrom cs.length J (k + 1) < cs.length →
      levelAt cs (firstEffFrom cs.length J (k + 1)) ≤ levelAt cs k + 1)
    (H0 : firstEffFrom cs.length J 0 < cs.length →
      levelAt cs (firstEffFrom cs.length J 0) ≤ 0) :
    build_comments_tree cs = forestOf (-1) (effPairs cs J 0 cs.length) := by
  unfold build_comments_tree
  by_cases he : cs.isEmpty
  · rw [if_pos he]
    have h0 : cs.length = 0 := by
      rw [List.isEmpty_iff] at he
      rw [he]
      rfl
    rw [h0, effPairs_self, forestOf_nil]
  · rw [if_neg he]
    have h0 : usedUpTo J 0 = ∅ := by
      ext k
      simp [mem_usedUpTo]
    rw [← h0]
    rw [build_loop_eq cs J G1 G2 G3 cs.length 0 [] (by omega) (by omega) H0]
    rw [List.nil_append]

/-- Pre-order traversal with depths of the canonical forest of a
well-formed slice reproduces the slice's (level, id) pairs. -/
theorem preorder_forestOf :
    ∀ (d : Nat) (s : List (Int × HackerNewsComment)) (L : Int), s.length ≤ d →
    (∀ p ∈ s, L < p.1) →
    (∀ p, s.head? = some p → p.1 = L + 1) →
    List.Chain' (fun a b => b.1 ≤ a.1 + 1) s →
    preorderForest (L + 1) (forestOf L s) = s.map (fun p => (p.1, p.2.id)) := by
  intro d
  induction d with
  | zero =>
    intro s L hlen _ _ _
    have hnil : s = [] := List.length_eq_zero.mp (by omega)
    rw [hnil, forestOf_nil]
    simp only [preorderForest, List.map_nil]
  | succ d ih =>
    intro s L hlen hmem hhead hchain
    cases s with
    | nil =>
      rw [forestOf_nil]
      simp only [preorderForest, List.map_nil]
    | cons q t =>
      obtain ⟨l, c⟩ := q
      have hl : l = L + 1 := hhead (l, c) rfl
      subst hl
      rw [forestOf, if_pos rfl]
      have htail : List.Chain' (fun a b => b.1 ≤ a.1 + 1) t := hchain.tail
      have hinner_mem : ∀ p ∈ t.takeWhile (fun p => decide (L + 1 < p.1)), L + 1 < p.1 := by
        intro p hp
        simpa using List.mem_takeWhile_imp hp
      have hinner_head : ∀ p, (t.takeWhile (fun p => decide (L + 1 < p.1))).head? = some p →
          p.1 = (L + 1) + 1 := by
        intro p hp
        cases t with
        | nil => simp at hp
        | cons x t' =>
          by_cases hx : (L + 1 < x.1)
          · rw [List.takeWhile_cons_of_pos (by simpa using hx)] at hp
            rw [List.head?_cons] at hp
            have hxp : x = p := by injection hp
            have hcc := List.chain'_cons.mp hchain
            have hle : x.1 ≤ (L + 1) + 1 := by simpa using hcc.1
            rw [← hxp]
            omega
          · rw [List.takeWhile_cons_of_neg (by simpa using hx)] at hp
            simp at hp
      have hinner_chain : List.Chain' (fun a b => b.1 ≤ a.1 + 1)
          (t.takeWhile (fun p => decide (L + 1 < p.1))) :=
        htail.prefix (List.takeWhile_prefix _)
      have hinner_len : (t.takeWhile (fun p => decide (L + 1 < p.1))).length ≤ d := by
        have h1 : (t.takeWhile (fun p => decide (L + 1 < p.1))).length ≤ t.length :=
          (List.takeWhile_prefix _).length_le
        simp only [List.length_cons] at hlen
        omega
      have hrest_mem : ∀ p ∈ t.dropWhile (fun p => decide (L + 1 < p.1)), L < p.1 := by
        intro p hp
        exact hmem p (List.mem_cons_of_mem _ ((List.dropWhile_suffix _).subset hp))
      have hrest_head : ∀ p, (t.dropWhile (fun p => decide (L + 1 < p.1))).head? = some p →
          p.1 = L + 1 := by
        intro p hp
        have h1 := List.head?_dropWhile_not (fun p : Int × HackerNewsComment =>
          decide (L + 1 < p.1)) t
        rw [hp] at h1
        have h2 : ¬(L + 1 < p.1) := by simpa using h1
        have h3 : L < p.1 := by
          apply hrest_mem p
          cases hd : t.dropWhile (fun p => decide (L + 1 < p.1)) with
          | nil => rw [hd] at hp; simp at hp
          | cons r rs =>
            rw [hd] at hp
            rw [List.head?_cons] at hp
            obtain rfl : r = p := by injection hp
            exact List.mem_cons_self _ _
        omega
      have hrest_chain : List.Chain' (fun a b => b.1 ≤ a.1 + 1)
          (t.dropWhile (fun p => decide (L + 1 < p.1))) :=
        htail.suffix (List.dropWhile_suffix _)
      have hrest_len : (t.dropWhile (fun p => decide (L + 1 < p.1))).length ≤ d := by
        have h1 : (t.dropWhile (fun p => decide (L + 1 < p.1))).length ≤ t.length :=
          (List.dropWhile_suffix _).length_le
        simp only [List.length_cons] at hlen
        omega
      cases c with
      | mk ci cb ct2 cg cl cch =>
        simp only [setChildren, preorderForest]
        rw [ih (t.takeWhile (fun p => decide (L + 1 < p.1))) (L + 1) hinner_len
          hinner_mem hinner_head hinner_chain]
        rw [ih (t.dropWhile (fun p => decide (L + 1 < p.1))) L hrest_len
          hrest_mem hrest_head hrest_chain]
        rw [List.map_cons]
        congr 1
        rw [← List.map_append, List.takeWhile_append_dropWhile]

theorem levelAt_get (cs : List (Int × HackerNewsComment)) (k : Nat) (h : k < cs.length) :
    levelAt cs k = (cs.get ⟨k, h⟩).1 := by
  unfold levelAt
  rw [List.getElem?_eq_getElem h]
  exact rfl

theorem commentAt_get (cs : List (Int × HackerNewsComment)) (k : Nat) (h : k < cs.length) :
    commentAt cs k = (cs.get ⟨k, h⟩).2 := by
  unfold commentAt
  rw [List.getElem?_eq_getElem h]
  exact rfl

/-- With no junk, the effective slice of the whole list is the list. -/
theorem effPairs_empty (cs : List (Int × HackerNewsComment)) :
    effPairs cs ∅ 0 cs.length = cs := by
  unfold effPairs effIdx
  have hfil : (List.range' 0 (cs.length - 0)).filter (fun k => decide (k ∉ (∅ : Finset Nat))) =
      List.range' 0 cs.length := by
    rw [Nat.sub_zero]
    apply List.filter_eq_self.mpr
    intro a _
    simp
  rw [hfil]
  apply List.ext_getElem
  · simp
  · intro i h1 h2
    rw [List.getElem_map]
    rw [List.getElem_range']
    simp only [Nat.zero_add, Nat.one_mul]
    rw [levelAt_get cs i h2, commentAt_get cs i h2]
    simp [List.get_eq_getElem]

theorem chain'_of_indexed (cs : List (Int × HackerNewsComment))
    (h : ∀ k, k + 1 < cs.length → levelAt cs (k + 1) ≤ levelAt cs k + 1) :
    List.Chain' (fun a b => b.1 ≤ a.1 + 1) cs := by
  rw [List.chain'_iff_get]
  intro i hi
  have h1 : i + 1 < cs.length := by omega
  have h2 : i < cs.length := by omega
  have := h i h1
  rw [levelAt_get cs (i + 1) h1, levelAt_get cs i h2] at this
  exact this

/-- The tree round trip for a well-formed flat sequence, as a reusable
lemma. -/
theorem tree_round_trip_of_wf (cs : List (Int × HackerNewsComment))
    (h0 : ∀ k, k < cs.length → 0 ≤ levelAt cs k)
    (hhead : 0 < cs.length → levelAt cs 0 = 0)
    (hstep : ∀ k, k + 1 < cs.length → levelAt cs (k + 1) ≤ levelAt cs k + 1) :
    preorderForest 0 (build_comments_tree cs) = cs.map (fun p => (p.1, p.2.id)) := by
  have hbuild := build_eq_forest cs ∅
    (fun k hk _ => h0 k hk)
    (fun j hj => absurd hj (Finset.not_mem_empty j))
    (by
      intro k hkn hkJ hlt2
      rcases Nat.lt_or_ge (k + 1) cs.length with h | h
      · rw [firstEff_of_eff _ _ _ h (by simp)] at hlt2 ⊢
        exact hstep k h
      · rw [firstEff_of_ge _ _ _ h] at hlt2
        omega)
    (by
      intro hlt2
      rcases Nat.lt_or_ge 0 cs.length with h | h
      · rw [firstEff_of_eff _ _ _ h (by simp)] at hlt2 ⊢
        rw [hhead h]
      · rw [firstEff_of_ge _ _ _ h] at hlt2
        omega)
  rw [hbuild, effPairs_empty cs]
  have hpre := preorder_forestOf cs.length cs (-1) (le_refl _)
    (by
      intro p hp
      rcases List.mem_iff_getElem.mp hp with ⟨k, hk, he⟩
      have := h0 k hk
      rw [levelAt_get cs k hk] at this
      rw [List.get_eq_getElem] at this
      rw [he] at this
      omega)
    (by
      intro p hp
      cases cs with
      | nil => simp at hp
      | cons q t =>
        rw [List.head?_cons] at hp
        obtain rfl : q = p := by injection hp
        have hq := hhead (by simp)
        rw [levelAt_get _ 0 (by simp)] at hq
        simp only [List.get_eq_getElem, List.getElem_cons_zero] at hq
        omega)
    (chain'_of_indexed cs hstep)
  rw [show (-1 : Int) + 1 = 0 by decide] at hpre
  exact hpre

/-- Claim C2: for a well-formed flat (level, node) sequence — levels
nonnegative (the 0-based level scheme), the first level 0, and each next
level at most one deeper than its predecessor — the pre-order traversal
of the built tree, recording each visited node's depth, reproduces
exactly the original (level, id) sequence. -/
theorem c2_tree_round_trip (cs : List (Int × HackerNewsComment))
    (h0 : ∀ k, k < cs.length → 0 ≤ levelAt cs k)
    (hhead : 0 < cs.length → levelAt cs 0 = 0)
    (hstep : ∀ k, k + 1 < cs.length → levelAt cs (k + 1) ≤ levelAt cs k + 1) :
    preorderForest 0 (build_comments_tree cs) = cs.map (fun p => (p.1, p.2.id)) :=
  tree_round_trip_of_wf cs h0 hhead hstep

theorem c2_tree_round_trip_witness :
    preorderForest 0 (build_comments_tree
      [(0, HackerNewsComment.mk "a" "" "" "" 0 []),
       (1, HackerNewsComment.mk "b" "" "" "" 1 []),
       (2, HackerNewsComment.mk "c" "" "" "" 2 []),
       (1, HackerNewsComment.mk "d" "" "" "" 1 []),
       (0, HackerNewsComment.mk "e" "" "" "" 0 [])]) =
    ([(0, HackerNewsComment.mk "a" "" "" "" 0 []),
       (1, HackerNewsComment.mk "b" "" "" "" 1 []),
       (2, HackerNewsComment.mk "c" "" "" "" 2 []),
       (1, HackerNewsComment.mk "d" "" "" "" 1 []),
       (0, HackerNewsComment.mk "e" "" "" "" 0 [])] :
      List (Int × HackerNewsComment)).map (fun p => (p.1, p.2.id)) :=
  c2_tree_round_trip _ (by decide) (by decide)
    (by
      intro k hk
      simp only [List.length_cons, List.length_nil] at hk
      have hk4 : k ≤ 3 := by omega
      interval_cases k <;> decide)

theorem levelAt_append_left (A B : List (Int × HackerNewsComment)) (k : Nat)
    (h : k < A.length) : levelAt (A ++ B) k = levelAt A k := by
  unfold levelAt
  rw [List.getElem?_append_left h]

theorem commentAt_append_left (A B : List (Int × HackerNewsComment)) (k : Nat)
    (h : k < A.length) : commentAt (A ++ B) k = commentAt A k := by
  unfold commentAt
  rw [List.getElem?_append_left h]

theorem levelAt_insert_right (P S : List (Int × HackerNewsComment)) (l : Int)
    (x : HackerNewsComment) (m : Nat) (h : P.length ≤ m) :
    levelAt (P ++ (l, x) :: S) (m + 1) = levelAt (P ++ S) m := by
  unfold levelAt
  rw [List.getElem?_append_right (by omega : P.length ≤ m + 1)]
  rw [List.getElem?_append_right h]
  rw [show m + 1 - P.length = (m - P.length) + 1 by omega]
  rw [List.getElem?_cons_succ]

theorem commentAt_insert_right (P S : List (Int × HackerNewsComment)) (l : Int)
    (x : HackerNewsComment) (m : Nat) (h : P.length ≤ m) :
    commentAt (P ++ (l, x) :: S) (m + 1) = commentAt (P ++ S) m := by
  unfold commentAt
  rw [List.getElem?_append_right (by omega : P.length ≤ m + 1)]
  rw [List.getElem?_append_right h]
  rw [show m + 1 - P.length = (m - P.length) + 1 by omega]
  rw [List.getElem?_cons_succ]

theorem levelAt_insert_mid (P S : List (Int × HackerNewsComment)) (l : Int)
    (x : HackerNewsComment) : levelAt (P ++ (l, x) :: S) P.length = l := by
  unfold levelAt
  rw [List.getElem?_append_right (le_refl _)]
  rw [Nat.sub_self, List.getElem?_cons_zero]

/-- Deleting the single junk index from the inserted list recovers the
original list. -/
theorem effPairs_singleton (P S : List (Int × HackerNewsComment)) (l : Int)
    (x : HackerNewsComment) :
    effPairs (P ++ (l, x) :: S) {P.length} 0 (P ++ (l, x) :: S).length = P ++ S := by
  have hn1 : (P ++ (l, x) :: S).length = P.length + S.length + 1 := by
    simp only [List.length_append, List.length_cons]
    omega
  rw [effPairs_append _ {P.length} 0 P.length _ (by omega) (by rw [hn1]; omega)]
  rw [effPairs_cons_junk _ {P.length} P.length _ (by rw [hn1]; omega)
    (Finset.mem_singleton_self _)]
  have hpart1 : effPairs (P ++ (l, x) :: S) {P.length} 0 P.length = P := by
    unfold effPairs effIdx
    have hfil : (List.range' 0 (P.length - 0)).filter
        (fun k => decide (k ∉ ({P.length} : Finset Nat))) = List.range' 0 P.length := by
      rw [Nat.sub_zero]
      apply List.filter_eq_self.mpr
      intro a ha
      rcases List.mem_range'.mp ha with ⟨q, hq, rfl⟩
      simp only [Finset.mem_singleton, decide_eq_true_eq]
      omega
    rw [hfil]
    apply List.ext_getElem
    · simp
    · intro i h1 h2
      rw [List.getElem_map, List.getElem_range']
      simp only [Nat.zero_add, Nat.one_mul]
      rw [levelAt_append_left P ((l, x) :: S) i h2, commentAt_append_left P ((l, x) :: S) i h2]
      rw [levelAt_get P i h2, commentAt_get P i h2]
      simp [List.get_eq_getElem]
  have hpart2 : effPairs (P ++ (l, x) :: S) {P.length} (P.length + 1)
      (P ++ (l, x) :: S).length = S := by
    unfold effPairs effIdx
    have hcnt : (P ++ (l, x) :: S).length - (P.length + 1) = S.length := by
      rw [hn1]; omega
    rw [hcnt]
    have hfil : (List.range' (P.length + 1) S.length).filter
        (fun k => decide (k ∉ ({P.length} : Finset Nat))) =
        List.range' (P.length + 1) S.length := by
      apply List.filter_eq_self.mpr
      intro a ha
      rcases List.mem_range'.mp ha with ⟨q, hq, rfl⟩
      simp only [Finset.mem_singleton, decide_eq_true_eq]
      omega
    rw [hfil]
    apply List.ext_getElem
    · simp
    · intro i h1 h2
      rw [List.getElem_map, List.getElem_range']
      simp only [Nat.one_mul]
      rw [show P.length + 1 + i = (P.length + i) + 1 by omega]
      rw [levelAt_insert_right P S l x (P.length + i) (by omega),
        commentAt_insert_right P S l x (P.length + i) (by omega)]
      unfold levelAt commentAt
      rw [List.getElem?_append_right (by omega : P.length ≤ P.length + i)]
      rw [show P.length + i - P.length = i by omega]
      rw [List.getElem?_eq_getElem h2]
  rw [hpart1, hpart2]

/-- Claim C5: inserting a node whose level jumps more than one deeper
than its nearest preceding candidate parent (the last node of the
well-formed prefix before it) into a well-formed flat sequence leaves
the built tree exactly as if the node were absent: it is silently
dropped — no error, the builder stays total — and the placement of every
other node is unchanged, as the pre-order traversal of the built tree
still reproduces the (level, id) pairs of the remaining nodes. -/
theorem c5_gap_node_dropped (P S : List (Int × HackerNewsComment)) (l : Int)
    (x : HackerNewsComment) (hP : P ≠ [])
    (h0 : ∀ k, k < (P ++ S).length → 0 ≤ levelAt (P ++ S) k)
    (hhead : levelAt (P ++ S) 0 = 0)
    (hstep : ∀ k, k + 1 < (P ++ S).length →
      levelAt (P ++ S) (k + 1) ≤ levelAt (P ++ S) k + 1)
    (hgap : (P.getLast hP).1 + 1 < l) :
    build_comments_tree (P ++ (l, x) :: S) = build_comments_tree (P ++ S) ∧
    preorderForest 0 (build_comments_tree (P ++ (l, x) :: S)) =
      (P ++ S).map (fun p => (p.1, p.2.id)) := by
  have hPlen : 0 < P.length := List.length_pos.mpr hP
  have hn1 : (P ++ (l, x) :: S).length = P.length + S.length + 1 := by
    simp only [List.length_append, List.length_cons]
    omega
  have hn2 : (P ++ S).length = P.length + S.length := by simp
  have eL : ∀ k, k < P.length →
      levelAt (P ++ (l, x) :: S) k = levelAt (P ++ S) k := by
    intro k hk
    rw [levelAt_append_left P ((l, x) :: S) k hk, levelAt_append_left P S k hk]
  have eR : ∀ m, P.length ≤ m →
      levelAt (P ++ (l, x) :: S) (m + 1) = levelAt (P ++ S) m :=
    fun m hm => levelAt_insert_right P S l x m hm
  have eM : levelAt (P ++ (l, x) :: S) P.length = l := levelAt_insert_mid P S l x
  have hlast : levelAt (P ++ S) (P.length - 1) = (P.getLast hP).1 := by
    rw [levelAt_append_left P S _ (by omega)]
    rw [levelAt_get P _ (by omega)]
    rw [List.getLast_eq_get]
  have G1 : ∀ k, k < (P ++ (l, x) :: S).length → k ∉ ({P.length} : Finset Nat) →
      0 ≤ levelAt (P ++ (l, x) :: S) k := by
    intro k hk hkJ
    have hkne : k ≠ P.length := by simpa using hkJ
    rcases Nat.lt_or_ge k P.length with h | h
    · rw [eL k h]
      exact h0 k (by omega)
    · obtain ⟨m, rfl⟩ : ∃ m, k = m + 1 := ⟨k - 1, by omega⟩
      rw [eR m (by omega)]
      exact h0 m (by omega)
  have G2 : ∀ j ∈ ({P.length} : Finset Nat), j < (P ++ (l, x) :: S).length →
      ∃ k, lastEffBefore {P.length} j = some k ∧
        levelAt (P ++ (l, x) :: S) k + 1 < levelAt (P ++ (l, x) :: S) j := by
    intro j hj _
    have hj' : j = P.length := by simpa using hj
    subst hj'
    refine ⟨P.length - 1, ?_, ?_⟩
    · have hlf := lastEff_eff ({P.length} : Finset Nat) (P.length - 1)
        (by simp only [Finset.mem_singleton]; omega)
      rw [show (P.length - 1) + 1 = P.length by omega] at hlf
      exact hlf
    · rw [eM, eL (P.length - 1) (by omega), hlast]
      exact hgap
  have G3 : ∀ k, k < (P ++ (l, x) :: S).length → k ∉ ({P.length} : Finset Nat) →
      firstEffFrom (P ++ (l, x) :: S).length {P.length} (k + 1) <
        (P ++ (l, x) :: S).length →
      levelAt (P ++ (l, x) :: S)
          (firstEffFrom (P ++ (l, x) :: S).length {P.length} (k + 1)) ≤
        levelAt (P ++ (l, x) :: S) k + 1 := by
    intro k hk hkJ hlt2
    have hkne : k ≠ P.length := by simpa using hkJ
    by_cases hk1 : k + 1 = P.length
    · have hf1 : firstEffFrom (P ++ (l, x) :: S).length {P.length} (k + 1) =
          firstEffFrom (P ++ (l, x) :: S).length {P.length} (k + 2) := by
        rw [firstEff_of_junk _ _ _ (by omega) (by simp [hk1])]
      rcases Nat.lt_or_ge (k + 2) (P ++ (l, x) :: S).length with h2 | h2
      · have hf2 : firstEffFrom (P ++ (l, x) :: S).length {P.length} (k + 2) = k + 2 :=
          firstEff_of_eff _ _ _ h2 (by simp only [Finset.mem_singleton]; omega)
        rw [hf1, hf2]
        rw [show k + 2 = (k + 1) + 1 by omega, eR (k + 1) (by omega)]
        rw [eL k (by omega)]
        exact hstep k (by omega)
      · rw [hf1, firstEff_of_ge _ _ _ h2] at hlt2
        omega
    · rcases Nat.lt_or_ge (k + 1) (P ++ (l, x) :: S).length with h2 | h2
      · have hf : firstEffFrom (P ++ (l, x) :: S).length {P.length} (k + 1) = k + 1 :=
          firstEff_of_eff _ _ _ h2 (by simpa using hk1)
        rw [hf]
        rcases Nat.lt_or_ge k P.length with h | h
        · have hk2 : k + 1 < P.length := by omega
          rw [eL (k + 1) hk2, eL k h]
          exact hstep k (by omega)
        · obtain ⟨m, rfl⟩ : ∃ m, k = m + 1 := ⟨k - 1, by omega⟩
          rw [show m + 1 + 1 = (m + 1) + 1 by omega, eR (m + 1) (by omega)]
          rw [eR m (by omega)]
          exact hstep m (by omega)
      · rw [firstEff_of_ge _ _ _ h2] at hlt2
        omega
  have H0 : firstEffFrom (P ++ (l, x) :: S).length {P.length} 0 <
      (P ++ (l, x) :: S).length →
      levelAt (P ++ (l, x) :: S)
        (firstEffFrom (P ++ (l, x) :: S).length {P.length} 0) ≤ 0 := by
    intro _
    have hf : firstEffFrom (P ++ (l, x) :: S).length {P.length} 0 = 0 :=
      firstEff_of_eff _ _ _ (by rw [hn1]; omega)
        (by simp only [Finset.mem_singleton]; omega)
    rw [hf, eL 0 hPlen, hhead]
  have hb1 := build_eq_forest (P ++ (l, x) :: S) {P.length} G1 G2 G3 H0
  rw [effPairs_singleton P S l x] at hb1
  have hb2 := build_eq_forest (P ++ S) ∅
    (fun k hk _ => h0 k hk)
    (fun j hj => absurd hj (Finset.not_mem_empty j))
    (by
      intro k hkn hkJ hlt2
      rcases Nat.lt_or_ge (k + 1) (P ++ S).length with h | h
      · rw [firstEff_of_eff _ _ _ h (by simp)] at hlt2 ⊢
        exact hstep k h
      · rw [firstEff_of_ge _ _ _ h] at hlt2
        omega)
    (by
      intro hlt2
      rcases Nat.lt_or_ge 0 (P ++ S).length with h | h
      · rw [firstEff_of_eff _ _ _ h (by simp)] at hlt2 ⊢
        rw [hhead]
      · rw [firstEff_of_ge _ _ _ h] at hlt2
        omega)
  rw [effPairs_empty (P ++ S)] at hb2
  constructor
  · rw [hb1, hb2]
  · rw [hb1, ← hb2]
    exact tree_round_trip_of_wf (P ++ S) h0 (fun _ => hhead) hstep

theorem c5_gap_node_dropped_witness :
    (build_comments_tree [(0, HackerNewsComment.mk "a" "" "" "" 0 []),
        (3, HackerNewsComment.mk "x" "" "" "" 3 []),
        (1, HackerNewsComment.mk "b" "" "" "" 1 [])] =
      build_comments_tree [(0, HackerNewsComment.mk "a" "" "" "" 0 []),
        (1, HackerNewsComment.mk "b" "" "" "" 1 [])]) ∧
    preorderForest 0 (build_comments_tree [(0, HackerNewsComment.mk "a" "" "" "" 0 []),
        (3, HackerNewsComment.mk "x" "" "" "" 3 []),
        (1, HackerNewsComment.mk "b" "" "" "" 1 [])]) =
      ([(0, HackerNewsComment.mk "a" "" "" "" 0 []),
        (1, HackerNewsComment.mk "b" "" "" "" 1 [])] :
        List (Int × HackerNewsComment)).map (fun p => (p.1, p.2.id)) :=
  c5_gap_node_dropped [(0, HackerNewsComment.mk "a" "" "" "" 0 [])]
    [(1, HackerNewsComment.mk "b" "" "" "" 1 [])] 3
    (HackerNewsComment.mk "x" "" "" "" 3 []) (by simp)
    (by decide) (by decide)
    (by
      intro k hk
      simp only [List.length_append, List.length_cons, List.length_nil] at hk
      have hk1 : k = 0 := by omega
      subst hk1
      decide)
    (by decide)
